import Mathlib

/-!
Verification of the reqparser core (src/server/server.go): the schema
renderer (`formatData` / `formatAsGo` / `formatAsRust` / `getGoType` /
`getRustType` / `generateGoFields` / `generateRustFields`) and the pretty
printer (`formatJSON`), over a shallow embedding of the decoded JSON value
trees that `json.Unmarshal` produces.
-/

namespace ReqParser

/-- A decoded JSON value as `json.Unmarshal` produces it into `interface{}`:
`nil`, `bool`, `float64`, `string`, `[]interface{}`, `map[string]interface{}`.
Numbers are embedded as exact rationals: every decoded `float64` is the value
of a finite decimal literal, so `ℚ` carries it losslessly (the embedding
idealizes the float64 rounding step away; only the number's value matters to
the claims below).  A Go map is unordered and its iteration order is chosen
nondeterministically at each `range` loop; we embed a mapping as the
association list of its entries in one particular iteration order, so a
`JsonValue` determines the map *together with* the order a renderer will
walk it in. -/
inductive JsonValue where
  | null
  | bool (b : Bool)
  | num (q : ℚ)
  | str (s : String)
  | arr (xs : List JsonValue)
  | obj (kvs : List (String × JsonValue))

/-- Structural induction over `JsonValue` with element-wise hypotheses for the
nested lists (arrays and object entries). -/
def JsonValue.indOn (P : JsonValue → Prop)
    (hnull : P .null)
    (hbool : ∀ b, P (.bool b))
    (hnum : ∀ q, P (.num q))
    (hstr : ∀ s, P (.str s))
    (harr : ∀ xs, (∀ x ∈ xs, P x) → P (.arr xs))
    (hobj : ∀ kvs, (∀ p ∈ kvs, P p.2) → P (.obj kvs)) :
    ∀ v, P v := fun v =>
  match v with
  | .null => hnull
  | .bool b => hbool b
  | .num q => hnum q
  | .str s => hstr s
  | .arr xs => harr xs (fun x hx =>
      have : sizeOf x < 1 + sizeOf xs := by
        have := List.sizeOf_lt_of_mem hx
        omega
      JsonValue.indOn P hnull hbool hnum hstr harr hobj x)
  | .obj kvs => hobj kvs (fun p hp =>
      have : sizeOf p.2 < 1 + sizeOf kvs := by
        have h1 := List.sizeOf_lt_of_mem hp
        obtain ⟨a, b⟩ := p
        simp at h1 ⊢
        omega
      JsonValue.indOn P hnull hbool hnum hstr harr hobj p.2)
termination_by v => sizeOf v

/-! ## The schema renderer (src/server/server.go lines 140-226) -/

/-- `getGoType`: the Go type token chosen for one field value by a runtime
type switch over the decoded value's kind.  The Go source's `default` arm
also returns `"interface{}"`; the kind set here is closed, so `null` is the
only value reaching that token. -/
def getGoType : JsonValue → String
  | .bool _ => "bool"
  | .num _ => "float64"
  | .str _ => "string"
  | .arr _ => "[]interface\x7b\x7d"
  | .obj _ => "map[string]interface\x7b\x7d"
  | .null => "interface\x7b\x7d"

/-- `getRustType`: the Rust type token chosen for one field value. -/
def getRustType : JsonValue → String
  | .bool _ => "bool"
  | .num _ => "f64"
  | .str _ => "String"
  | .arr _ => "Vec<serde_json::Value>"
  | .obj _ => "serde_json::Map<String, serde_json::Value>"
  | .null => "Option<serde_json::Value>"

/-- `generateGoFields`: for a mapping, one field line per key accumulated in
iteration order via string concatenation (the Go `for key, val := range v`
loop); for any other value, the single synthetic `Data` field. -/
def generateGoFields : JsonValue → String
  | .obj kvs =>
      kvs.foldl (fun result kv =>
        result ++ ("    " ++ kv.1 ++ " " ++ getGoType kv.2 ++ " `json:\"" ++ kv.1 ++ "\"`\n")) ""
  | _ => "    Data interface\x7b\x7d `json:\"data\"`\n"

/-- `generateRustFields`: per key, a serde rename annotation line followed by
the field line; for non-mappings, the single synthetic `data` field. -/
def generateRustFields : JsonValue → String
  | .obj kvs =>
      kvs.foldl (fun result kv =>
        result ++ ("    #[serde(rename = \"" ++ kv.1 ++ "\")]\n    " ++ kv.1 ++ ": "
          ++ getRustType kv.2 ++ ",\n")) ""
  | _ => "    data: serde_json::Value,\n"

/-- `formatAsGo`: the Go struct wrapper around the generated fields.  The Go
function returns the pair `(string, error)` with a always-`nil` error; the
second component embeds that error value. -/
def formatAsGo (data : JsonValue) : String × Option String :=
  ("type GeneratedStruct struct \x7b\n" ++ generateGoFields data ++ "\x7d", none)

/-- `formatAsRust`: the derive annotation block, the struct wrapper, and the
generated fields; the error component is always `nil`. -/
def formatAsRust (data : JsonValue) : String × Option String :=
  ("#[derive(Debug, Serialize, Deserialize)]\nstruct GeneratedStruct \x7b\n"
    ++ generateRustFields data ++ "\x7d", none)

/-- `formatData`: dispatch on the configured format type.  An unrecognized
selector yields the empty string paired with the error
`unsupported format type: <t>` (the Go `fmt.Errorf` value). -/
def formatData (formatType : String) (data : JsonValue) : String × Option String :=
  match formatType with
  | "go" => formatAsGo data
  | "rust" => formatAsRust data
  | _ => ("", some ("unsupported format type: " ++ formatType))

/-- The one field line `generateGoFields` appends for a key/value pair. -/
def goFieldLine (kv : String × JsonValue) : String :=
  "    " ++ kv.1 ++ " " ++ getGoType kv.2 ++ " `json:\"" ++ kv.1 ++ "\"`\n"

/-- The annotation line plus field line `generateRustFields` appends for a
key/value pair. -/
def rustFieldBlock (kv : String × JsonValue) : String :=
  "    #[serde(rename = \"" ++ kv.1 ++ "\")]\n    " ++ kv.1 ++ ": " ++ getRustType kv.2 ++ ",\n"

/-- Concatenation of a list of strings, head first. -/
def sconcat : List String → String
  | [] => ""
  | s :: rest => s ++ sconcat rest

/-- Whether a decoded value is a mapping (the `map[string]interface{}` arm of
the renderers' type switches). -/
def isMapping : JsonValue → Bool
  | .obj _ => true
  | _ => false

/-- Number of newline characters in a string; each complete rendered line
contributes exactly one. -/
def newlineCount (s : String) : Nat := s.data.count '\n'

/-! ## Renderer lemmas -/

theorem foldl_append_eq_sconcat {α : Type} (f : α → String) (l : List α) (a : String) :
    l.foldl (fun r x => r ++ f x) a = a ++ sconcat (l.map f) := by
  induction l generalizing a with
  | nil => simp [sconcat]
  | cons x xs ih => simp [sconcat, ih (a ++ f x), String.append_assoc]

theorem generateGoFields_obj (kvs : List (String × JsonValue)) :
    generateGoFields (.obj kvs) = sconcat (kvs.map goFieldLine) := by
  have h := foldl_append_eq_sconcat goFieldLine kvs ""
  simpa [generateGoFields, goFieldLine] using h

theorem generateRustFields_obj (kvs : List (String × JsonValue)) :
    generateRustFields (.obj kvs) = sconcat (kvs.map rustFieldBlock) := by
  have h := foldl_append_eq_sconcat rustFieldBlock kvs ""
  simpa [generateRustFields, rustFieldBlock] using h

theorem newlineCount_append (a b : String) :
    newlineCount (a ++ b) = newlineCount a + newlineCount b := by
  simp [newlineCount, String.data_append]

theorem newlineCount_getGoType (v : JsonValue) : newlineCount (getGoType v) = 0 := by
  cases v <;> simp only [getGoType] <;> decide

theorem newlineCount_getRustType (v : JsonValue) : newlineCount (getRustType v) = 0 := by
  cases v <;> simp only [getRustType] <;> decide

theorem newlineCount_goFieldLine (kv : String × JsonValue) (hk : newlineCount kv.1 = 0) :
    newlineCount (goFieldLine kv) = 1 := by
  simp [goFieldLine, newlineCount_append, hk, newlineCount_getGoType]
  decide

theorem newlineCount_rustFieldBlock (kv : String × JsonValue) (hk : newlineCount kv.1 = 0) :
    newlineCount (rustFieldBlock kv) = 2 := by
  simp [rustFieldBlock, newlineCount_append, hk, newlineCount_getRustType]
  decide

theorem formatData_eq (t : String) (v : JsonValue) :
    formatData t v =
      if t = "go" then formatAsGo v
      else if t = "rust" then formatAsRust v
      else ("", some ("unsupported format type: " ++ t)) := by
  unfold formatData
  split
  · simp
  · simp
  · rename_i h1 h2
    rw [if_neg h1, if_neg h2]

/-! ## Claims about the schema renderer -/

/-- Claim C1 — per-field type inference is a pure function of the value's
runtime kind, one level deep: the full token tables of `getGoType` (Target A)
and `getRustType` (Target B), with numbers always mapped to the 64-bit float
token and nested mappings/sequences mapped to a generic token regardless of
their contents. -/
theorem type_token_tables :
    (∀ b, getGoType (.bool b) = "bool") ∧ (∀ q, getGoType (.num q) = "float64")
    ∧ (∀ s, getGoType (.str s) = "string")
    ∧ (∀ xs, getGoType (.arr xs) = "[]interface\x7b\x7d")
    ∧ (∀ kvs, getGoType (.obj kvs) = "map[string]interface\x7b\x7d")
    ∧ getGoType .null = "interface\x7b\x7d"
    ∧ (∀ b, getRustType (.bool b) = "bool") ∧ (∀ q, getRustType (.num q) = "f64")
    ∧ (∀ s, getRustType (.str s) = "String")
    ∧ (∀ xs, getRustType (.arr xs) = "Vec<serde_json::Value>")
    ∧ (∀ kvs, getRustType (.obj kvs) = "serde_json::Map<String, serde_json::Value>")
    ∧ getRustType .null = "Option<serde_json::Value>" :=
  ⟨fun _ => rfl, fun _ => rfl, fun _ => rfl, fun _ => rfl, fun _ => rfl, rfl,
   fun _ => rfl, fun _ => rfl, fun _ => rfl, fun _ => rfl, fun _ => rfl, rfl⟩

/-- Claim C2 — rendering a mapping emits exactly one field entry per key, in
iteration order: both generators produce the concatenation of one per-key
block, the block lists have exactly one entry per key, and (for keys without
embedded newlines) the Go output has exactly one physical line per key while
the Rust output has exactly two (annotation line plus field line). -/
theorem render_one_field_per_key (kvs : List (String × JsonValue))
    (hkeys : ∀ p ∈ kvs, newlineCount p.1 = 0) :
    generateGoFields (.obj kvs) = sconcat (kvs.map goFieldLine)
    ∧ generateRustFields (.obj kvs) = sconcat (kvs.map rustFieldBlock)
    ∧ (kvs.map goFieldLine).length = kvs.length
    ∧ (kvs.map rustFieldBlock).length = kvs.length
    ∧ newlineCount (generateGoFields (.obj kvs)) = kvs.length
    ∧ newlineCount (generateRustFields (.obj kvs)) = 2 * kvs.length := by
  refine ⟨generateGoFields_obj kvs, generateRustFields_obj kvs, by simp, by simp, ?_, ?_⟩
  · rw [generateGoFields_obj]
    induction kvs with
    | nil => decide
    | cons p rest ih =>
      have hp := hkeys p (by simp)
      have hrest := ih (fun q hq => hkeys q (by simp [hq]))
      simp [sconcat, newlineCount_append, newlineCount_goFieldLine p hp, hrest]
      omega
  · rw [generateRustFields_obj]
    induction kvs with
    | nil => decide
    | cons p rest ih =>
      have hp := hkeys p (by simp)
      have hrest := ih (fun q hq => hkeys q (by simp [hq]))
      simp [sconcat, newlineCount_append, newlineCount_rustFieldBlock p hp, hrest]
      ring

/-- Witness for C2 at the spec's own scenario `{"name":"test","value":123}`. -/
theorem render_one_field_per_key_witness :
    (∀ p ∈ ([("name", JsonValue.str "test"), ("value", JsonValue.num 123)] :
        List (String × JsonValue)), newlineCount p.1 = 0)
    ∧ (generateGoFields (.obj [("name", JsonValue.str "test"), ("value", JsonValue.num 123)])
        = sconcat ([("name", JsonValue.str "test"), ("value", JsonValue.num 123)].map goFieldLine)
      ∧ generateRustFields (.obj [("name", JsonValue.str "test"), ("value", JsonValue.num 123)])
        = sconcat ([("name", JsonValue.str "test"),
            ("value", JsonValue.num 123)].map rustFieldBlock)
      ∧ ([("name", JsonValue.str "test"), ("value", JsonValue.num 123)].map goFieldLine).length
        = [("name", JsonValue.str "test"), ("value", JsonValue.num 123)].length
      ∧ ([("name", JsonValue.str "test"), ("value", JsonValue.num 123)].map rustFieldBlock).length
        = [("name", JsonValue.str "test"), ("value", JsonValue.num 123)].length
      ∧ newlineCount (generateGoFields
          (.obj [("name", JsonValue.str "test"), ("value", JsonValue.num 123)]))
        = [("name", JsonValue.str "test"), ("value", JsonValue.num 123)].length
      ∧ newlineCount (generateRustFields
          (.obj [("name", JsonValue.str "test"), ("value", JsonValue.num 123)]))
        = 2 * [("name", JsonValue.str "test"), ("value", JsonValue.num 123)].length) :=
  ⟨by intro p hp; fin_cases hp <;> decide,
   render_one_field_per_key _ (by intro p hp; fin_cases hp <;> decide)⟩

/-- Claim C3 — `formatData` fails exactly on targets outside `go`/`rust`; in
the failing case the text component is empty (no partial output), and for a
recognized target the error component is always `nil`, whatever the value. -/
theorem formatData_error_iff (t : String) (v : JsonValue) :
    ((formatData t v).2 = none ↔ t = "go" ∨ t = "rust")
    ∧ ((formatData t v).2 ≠ none → (formatData t v).1 = "") := by
  rw [formatData_eq]
  by_cases hg : t = "go"
  · subst hg; simp [formatAsGo]
  · by_cases hr : t = "rust"
    · subst hr; simp [formatAsRust]
    · simp [hg, hr]

/-- Witness for C3: the unsupported target `python` errors with empty text,
and the supported target `go` never errors. -/
theorem formatData_error_iff_witness :
    (((formatData "python" JsonValue.null).2 = none ↔ "python" = "go" ∨ "python" = "rust")
      ∧ ((formatData "python" JsonValue.null).2 ≠ none
          → (formatData "python" JsonValue.null).1 = ""))
    ∧ (formatData "python" JsonValue.null).1 = ""
    ∧ (formatData "go" JsonValue.null).2 = none :=
  ⟨formatData_error_iff "python" JsonValue.null,
   (formatData_error_iff "python" JsonValue.null).2 (by decide), by decide⟩

/-- Claim C4 — Target B output: the derive annotation block immediately
precedes the struct wrapper, and each key contributes a serde rename
annotation carrying the key verbatim, directly above its field line. -/
theorem rust_render_annotations (kvs : List (String × JsonValue)) :
    formatAsRust (.obj kvs)
      = ("#[derive(Debug, Serialize, Deserialize)]\nstruct GeneratedStruct \x7b\n"
          ++ sconcat (kvs.map rustFieldBlock) ++ "\x7d", none)
    ∧ ∀ kv : String × JsonValue,
        rustFieldBlock kv
          = "    #[serde(rename = \"" ++ kv.1 ++ "\")]\n    " ++ kv.1 ++ ": "
            ++ getRustType kv.2 ++ ",\n" := by
  refine ⟨?_, fun kv => rfl⟩
  simp [formatAsRust, generateRustFields_obj, String.append_assoc]

/-- Claim C5 — a non-mapping top-level value renders as one wrapper with one
synthetic generically-typed field, for both targets. -/
theorem synthetic_field_render (v : JsonValue) (h : isMapping v = false) :
    formatAsGo v
      = ("type GeneratedStruct struct \x7b\n    Data interface\x7b\x7d `json:\"data\"`\n\x7d",
          none)
    ∧ formatAsRust v
      = ("#[derive(Debug, Serialize, Deserialize)]\nstruct GeneratedStruct \x7b\n"
          ++ "    data: serde_json::Value,\n\x7d", none) := by
  cases v with
  | obj kvs => simp [isMapping] at h
  | null => exact ⟨by decide, by decide⟩
  | bool b => constructor <;> simp [formatAsGo, formatAsRust, generateGoFields,
      generateRustFields]
  | num q => constructor <;> simp [formatAsGo, formatAsRust, generateGoFields,
      generateRustFields]
  | str s => constructor <;> simp [formatAsGo, formatAsRust, generateGoFields,
      generateRustFields]
  | arr xs => constructor <;> simp [formatAsGo, formatAsRust, generateGoFields,
      generateRustFields]

/-- Witness for C5 at the spec's scenario: the bare array `[1,2,3]`. -/
theorem synthetic_field_render_witness :
    isMapping (.arr [JsonValue.num 1, JsonValue.num 2, JsonValue.num 3]) = false
    ∧ (formatAsGo (.arr [JsonValue.num 1, JsonValue.num 2, JsonValue.num 3])
        = ("type GeneratedStruct struct \x7b\n    Data interface\x7b\x7d `json:\"data\"`\n\x7d",
            none)
      ∧ formatAsRust (.arr [JsonValue.num 1, JsonValue.num 2, JsonValue.num 3])
        = ("#[derive(Debug, Serialize, Deserialize)]\nstruct GeneratedStruct \x7b\n"
            ++ "    data: serde_json::Value,\n\x7d", none)) :=
  ⟨rfl, synthetic_field_render _ rfl⟩

/-- Counterexample to claim C6 as stated: a Go map is unordered (two
association lists that are permutations of one another embed the same decoded
mapping), yet `formatData` renders them to different bytes, so output is not
a function of the decoded value alone — iterating the same map in a different
order changes the bytes, exactly as the source's `range` loop may do between
two calls. -/
theorem render_order_counterexample :
    ([("alpha", JsonValue.str "x"), ("beta", JsonValue.bool true)] :
        List (String × JsonValue)).Perm
      [("beta", JsonValue.bool true), ("alpha", JsonValue.str "x")]
    ∧ formatData "go" (.obj [("alpha", JsonValue.str "x"), ("beta", JsonValue.bool true)])
      ≠ formatData "go" (.obj [("beta", JsonValue.bool true), ("alpha", JsonValue.str "x")]) :=
  ⟨List.Perm.swap _ _ _, by decide⟩

/-- Claim C6, amended — `render` is deterministic given the mapping-iteration
order: the output depends only on the sequence of keys in iteration order and
each value's inferred type tokens, so two calls that iterate the mapping the
same way produce byte-identical output (while different iteration orders of
the same mapping may not, see the counterexample). -/
theorem render_deterministic (t : String) (kvs kvs' : List (String × JsonValue))
    (hk : kvs.map (fun p => (p.1, getGoType p.2, getRustType p.2))
        = kvs'.map (fun p => (p.1, getGoType p.2, getRustType p.2))) :
    formatData t (.obj kvs) = formatData t (.obj kvs') := by
  have hgo : kvs.map goFieldLine = kvs'.map goFieldLine := by
    induction kvs generalizing kvs' with
    | nil => cases kvs' with
      | nil => rfl
      | cons q rest => simp at hk
    | cons p rest ih =>
      cases kvs' with
      | nil => simp at hk
      | cons q rest' =>
        simp only [List.map_cons, List.cons.injEq, Prod.mk.injEq] at hk
        obtain ⟨⟨h1, h2, _⟩, htl⟩ := hk
        simp only [List.map_cons, List.cons.injEq]
        exact ⟨by simp [goFieldLine, h1, h2], ih rest' htl⟩
  have hrust : kvs.map rustFieldBlock = kvs'.map rustFieldBlock := by
    clear hgo
    induction kvs generalizing kvs' with
    | nil => cases kvs' with
      | nil => rfl
      | cons q rest => simp at hk
    | cons p rest ih =>
      cases kvs' with
      | nil => simp at hk
      | cons q rest' =>
        simp only [List.map_cons, List.cons.injEq, Prod.mk.injEq] at hk
        obtain ⟨⟨h1, _, h3⟩, htl⟩ := hk
        simp only [List.map_cons, List.cons.injEq]
        exact ⟨by simp [rustFieldBlock, h1, h3], ih rest' htl⟩
  rw [formatData_eq, formatData_eq]
  by_cases hg : t = "go"
  · simp [hg, formatAsGo, generateGoFields_obj, hgo]
  · by_cases hr : t = "rust"
    · simp [hg, hr, formatAsRust, generateRustFields_obj, hrust]
    · simp [hg, hr]

/-- Witness for the amended C6: two iterations presenting the same keys and
type tokens (here: different numeric values of the same kind) render the same
bytes. -/
theorem render_deterministic_witness :
    ([("k", JsonValue.num 1)] : List (String × JsonValue)).map
        (fun p => (p.1, getGoType p.2, getRustType p.2))
      = ([("k", JsonValue.num 2)] : List (String × JsonValue)).map
        (fun p => (p.1, getGoType p.2, getRustType p.2))
    ∧ formatData "go" (.obj [("k", JsonValue.num 1)])
      = formatData "go" (.obj [("k", JsonValue.num 2)]) :=
  ⟨rfl, render_deterministic "go" _ _ rfl⟩

/-- Claim C10 — the empty mapping is still a mapping: both targets succeed
and render the wrapper with zero field lines. -/
theorem empty_mapping_render :
    formatData "go" (.obj []) = ("type GeneratedStruct struct \x7b\n\x7d", none)
    ∧ formatData "rust" (.obj [])
      = ("#[derive(Debug, Serialize, Deserialize)]\nstruct GeneratedStruct \x7b\n\x7d", none) :=
  ⟨by decide, by decide⟩

/-! ## The JSON serializer (the `encoding/json` behaviour `formatJSON` uses)

`json.Marshal` on a decoded `interface{}` tree emits minimal one-line JSON
with map keys in sorted (byte-lexicographic) order at every level, strings
escaped (with HTML escaping on, the default for `Marshal`), and numbers in
decimal.  We embed it in two stages: `canon` recursively sorts every
mapping's entries by key (byte order on valid UTF-8 equals code-point order,
so the comparator works on the character lists), and `marshalRaw` renders a
tree in list order; `marshalStr` composes the two. -/

/-- The lowercase hexadecimal digit for `n < 16` (as `encoding/json` uses in
`\u00XX` escapes). -/
def hexDigitChar (n : Nat) : Char :=
  if n < 10 then Char.ofNat (48 + n) else Char.ofNat (87 + n)

/-- One character escaped the way `encoding/json`'s string encoder does with
HTML escaping enabled: quote and backslash get two-character escapes, the
HTML-sensitive characters and (most) control characters become `\u00XX`,
newline/carriage-return/tab use their short escapes, U+2028/U+2029 are
escaped, and everything else is emitted verbatim. -/
def escapeChar (c : Char) : List Char :=
  if c = '"' then ['\\', '"']
  else if c = '\\' then ['\\', '\\']
  else if c = '<' ∨ c = '>' ∨ c = '&' then
    ['\\', 'u', '0', '0', hexDigitChar (c.toNat / 16), hexDigitChar (c.toNat % 16)]
  else if c.toNat < 32 then
    if c = '\n' then ['\\', 'n']
    else if c = '\r' then ['\\', 'r']
    else if c = '\t' then ['\\', 't']
    else ['\\', 'u', '0', '0', hexDigitChar (c.toNat / 16), hexDigitChar (c.toNat % 16)]
  else if c.toNat = 8232 ∨ c.toNat = 8233 then
    ['\\', 'u', '2', '0', '2', hexDigitChar (c.toNat % 16)]
  else [c]

/-- A string rendered as a JSON string literal: quote, escaped characters,
quote. -/
def quoteChars (s : String) : List Char := '"' :: (s.data.flatMap escapeChar ++ ['"'])

/-- The decimal digit character for `n < 10`. -/
def digitChar (n : Nat) : Char := Char.ofNat (48 + n)

/-- Decimal digits of `n`, most significant first, no leading zeros (`0` gives
`"0"`). -/
def natDigits (n : Nat) : List Char :=
  if h : n < 10 then [digitChar n]
  else natDigits (n / 10) ++ [digitChar (n % 10)]
termination_by n
decreasing_by omega

/-- Exactly `k` decimal digits of `n mod 10^k`, most significant first (the
fixed-width fractional part of a decimal rendering). -/
def fixedDigits : Nat → Nat → List Char
  | 0, _ => []
  | k + 1, n => fixedDigits k (n / 10) ++ [digitChar (n % 10)]

/-- Linear search for an exponent `k` (starting at `k0`, trying `fuel + 1`
candidates) with `d ∣ 10 ^ k`; returns the last candidate if none works. -/
def findExpAux (d : Nat) : Nat → Nat → Nat
  | k0, 0 => k0
  | k0, fuel + 1 => if d ∣ 10 ^ k0 then k0 else findExpAux d (k0 + 1) fuel

/-- The least `k ≤ d` with `d ∣ 10 ^ k`, when one exists (it does for the
denominator of every decoded number, which is the value of a finite decimal
literal). -/
def decExp (d : Nat) : Nat := findExpAux d 0 (d + 1)

/-- Decimal rendering of a rational whose denominator divides a power of ten
(the exact value of a `float64` produced by decoding): optional minus sign,
integer digits, and — when the denominator is not 1 — a point followed by the
fixed-width fractional digits.  (`encoding/json` renders a `float64` by the
shortest decimal that reparses to it; on the idealized exact values this is
its decimal expansion.) -/
def numChars (q : ℚ) : List Char :=
  let k := decExp q.den
  let m : Int := q.num * ((10 : Int) ^ k / (q.den : Int))
  let a := m.natAbs
  (if q.num < 0 then ['-'] else [])
    ++ natDigits (a / 10 ^ k)
    ++ (if k = 0 then [] else '.' :: fixedDigits k (a % 10 ^ k))

/-- Byte-lexicographic comparison of two character lists (UTF-8 byte order on
valid text coincides with code-point order, so this is the order
`encoding/json` sorts map keys in). -/
def keyLeb : List Char → List Char → Bool
  | [], _ => true
  | _ :: _, [] => false
  | a :: as, b :: bs => if a < b then true else if b < a then false else keyLeb as bs

/-- The key order used to sort one mapping level before rendering. -/
def keyLe (p q : String × JsonValue) : Prop := keyLeb p.1.data q.1.data = true

instance : DecidableRel keyLe := fun p q => inferInstanceAs (Decidable (_ = true))

/-- One mapping level's entries sorted by key, as `encoding/json` does before
emitting an object. -/
def sortKeys (kvs : List (String × JsonValue)) : List (String × JsonValue) :=
  List.insertionSort keyLe kvs

mutual
/-- Recursively sort every mapping level by key: the canonical tree whose
in-order rendering equals `json.Marshal`'s sorted-key output. -/
def canon : JsonValue → JsonValue
  | .null => .null
  | .bool b => .bool b
  | .num q => .num q
  | .str s => .str s
  | .arr xs => .arr (canonList xs)
  | .obj kvs => .obj (sortKeys (canonPairs kvs))
def canonList : List JsonValue → List JsonValue
  | [] => []
  | x :: xs => canon x :: canonList xs
def canonPairs : List (String × JsonValue) → List (String × JsonValue)
  | [] => []
  | p :: ps => (p.1, canon p.2) :: canonPairs ps
end

mutual
/-- Minimal one-line JSON text of a tree, in list order (apply to `canon v`
for `json.Marshal`'s output). -/
def marshalRaw : JsonValue → List Char
  | .null => ['n', 'u', 'l', 'l']
  | .bool b => if b then ['t', 'r', 'u', 'e'] else ['f', 'a', 'l', 's', 'e']
  | .num q => numChars q
  | .str s => quoteChars s
  | .arr xs => '[' :: (elemsRaw xs ++ [']'])
  | .obj kvs => '\x7b' :: (membersRaw kvs ++ ['\x7d'])
def elemsRaw : List JsonValue → List Char
  | [] => []
  | [x] => marshalRaw x
  | x :: y :: rest => marshalRaw x ++ ',' :: elemsRaw (y :: rest)
def membersRaw : List (String × JsonValue) → List Char
  | [] => []
  | [p] => quoteChars p.1 ++ ':' :: marshalRaw p.2
  | p :: r :: rest => (quoteChars p.1 ++ ':' :: marshalRaw p.2) ++ ',' :: membersRaw (r :: rest)
end

/-- `json.Marshal` of a decoded value: sorted keys, minimal text. -/
def marshalStr (v : JsonValue) : String := String.mk (marshalRaw (canon v))

/-- The indentation prefix at nesting depth `d` for `MarshalIndent(data, "",
"    ")`: `4 * d` spaces. -/
def indentPad (d : Nat) : List Char := List.replicate (4 * d) ' '

mutual
/-- `json.MarshalIndent(·, "", "    ")` body at nesting depth `d` (apply to
`canon v`): empty composites stay on one line, non-empty ones put each
element or member on its own line one indent level deeper. -/
def marshalIndentRaw (d : Nat) : JsonValue → List Char
  | .null => ['n', 'u', 'l', 'l']
  | .bool b => if b then ['t', 'r', 'u', 'e'] else ['f', 'a', 'l', 's', 'e']
  | .num q => numChars q
  | .str s => quoteChars s
  | .arr [] => ['[', ']']
  | .arr (x :: xs) => '[' :: '\n' :: (elemsIndent d (x :: xs) ++ '\n' :: (indentPad d ++ [']']))
  | .obj [] => ['\x7b', '\x7d']
  | .obj (p :: ps) =>
      '\x7b' :: '\n' :: (membersIndent d (p :: ps) ++ '\n' :: (indentPad d ++ ['\x7d']))
def elemsIndent (d : Nat) : List JsonValue → List Char
  | [] => []
  | [x] => indentPad (d + 1) ++ marshalIndentRaw (d + 1) x
  | x :: y :: rest =>
      (indentPad (d + 1) ++ marshalIndentRaw (d + 1) x) ++ ',' :: '\n' :: elemsIndent d (y :: rest)
def membersIndent (d : Nat) : List (String × JsonValue) → List Char
  | [] => []
  | [p] => indentPad (d + 1) ++ (quoteChars p.1 ++ ':' :: ' ' :: marshalIndentRaw (d + 1) p.2)
  | p :: r :: rest =>
      (indentPad (d + 1) ++ (quoteChars p.1 ++ ':' :: ' ' :: marshalIndentRaw (d + 1) p.2))
        ++ ',' :: '\n' :: membersIndent d (r :: rest)
end

/-- `json.MarshalIndent(v, "", "    ")` of a decoded value. -/
def marshalIndentStr (v : JsonValue) : String := String.mk (marshalIndentRaw 0 (canon v))

/-! ## The pretty printer `formatJSON` (src/server/server.go lines 49-83) -/

/-- `strings.TrimRight(line, " ")`: drop trailing space characters. -/
def trimRightSpaces (line : String) : String :=
  String.mk ((line.data.reverse.dropWhile (fun c => c = ' ')).reverse)

/-- `formatJSON`: with `pretty` set, the indented JSON wrapped in the
`JSON START` / `JSON END` delimiter banners (the `maxWidth`/`width`
computation is carried out, as in the source, and — as in the source — its
result is never used in the output); otherwise the compact JSON after the
fixed `JSON-Body: ` label.  Serialization of a decoded tree cannot fail
(every decoded kind is marshalable), so the source's error branch — which
would return an `Error formatting JSON: ...` string instead — is
unreachable and the embedding is total. -/
def formatJSON (pretty : Bool) (data : JsonValue) : String :=
  if pretty then
    let jsonStr := marshalIndentStr data
    let lines := jsonStr.splitOn "\n"
    let maxWidth := lines.foldl (fun mw line => max mw (trimRightSpaces line).utf8ByteSize) 0
    let _width := if maxWidth < 20 then 20 else maxWidth
    let delimiter := "\n=========="
    delimiter ++ "\nJSON START" ++ delimiter ++ "\n" ++ jsonStr ++ "\n"
      ++ delimiter ++ "\nJSON END" ++ delimiter
  else
    "JSON-Body: " ++ marshalStr data

/-! ## Pretty printer lemmas -/

/-- Decimal digit test, as the parser below and the digit lemmas use it. -/
def isDigitB (c : Char) : Bool := 48 ≤ c.toNat && c.toNat ≤ 57

theorem isDigitB_digitChar (r : Nat) (h : r < 10) : isDigitB (digitChar r) = true := by
  interval_cases r <;> decide

theorem mem_natDigits_digit (n : Nat) : ∀ c ∈ natDigits n, isDigitB c = true := by
  induction n using Nat.strong_induction_on with
  | _ n ih =>
    rw [natDigits]
    split
    · intro c hc
      simp only [List.mem_singleton] at hc
      subst hc
      exact isDigitB_digitChar _ (by omega)
    · intro c hc
      rw [List.mem_append] at hc
      rcases hc with hc | hc
      · exact ih (n / 10) (by omega) c hc
      · simp only [List.mem_singleton] at hc
        subst hc
        exact isDigitB_digitChar _ (Nat.mod_lt _ (by omega))

theorem mem_fixedDigits_digit (k : Nat) : ∀ m, ∀ c ∈ fixedDigits k m, isDigitB c = true := by
  induction k with
  | zero => intro m c hc; simp [fixedDigits] at hc
  | succ k ih =>
    intro m c hc
    rw [fixedDigits, List.mem_append] at hc
    rcases hc with hc | hc
    · exact ih (m / 10) c hc
    · simp only [List.mem_singleton] at hc
      subst hc
      exact isDigitB_digitChar _ (Nat.mod_lt _ (by omega))

theorem not_digit_newline : isDigitB '\n' = false := by decide

theorem hexDigitChar_ne_newline (m : Nat) (hm : m < 16) : hexDigitChar m ≠ '\n' := by
  interval_cases m <;> decide

theorem escapeChar_no_newline (c : Char) : '\n' ∉ escapeChar c := by
  unfold escapeChar
  split_ifs with h1 h2 h3 h4 h5 h6 h7 h8
  · decide
  · decide
  · rcases h3 with h | h | h <;> subst h <;> decide
  · decide
  · decide
  · decide
  · intro hc
    simp only [List.mem_cons, List.not_mem_nil, or_false] at hc
    rcases hc with h | h | h | h | h | h
    all_goals first
      | exact absurd h.symm (by decide)
      | exact absurd h.symm (hexDigitChar_ne_newline _ (by omega))
  · intro hc
    rcases h8 with h | h
    all_goals
      simp only [List.mem_cons, List.not_mem_nil, or_false, h] at hc
      rcases hc with hx | hx | hx | hx | hx | hx
      all_goals try rw [h] at hx
      all_goals exact absurd hx (by decide)
  · intro hc
    simp only [List.mem_singleton] at hc
    subst hc
    exact h4 (by decide)

theorem quoteChars_no_newline (s : String) : '\n' ∉ quoteChars s := by
  intro hc
  rw [quoteChars, List.mem_cons, List.mem_append, List.mem_flatMap] at hc
  rcases hc with h | ⟨x, _, hx⟩ | h
  · exact absurd h (by decide)
  · exact escapeChar_no_newline x hx
  · rw [List.mem_singleton] at h
    exact absurd h (by decide)

theorem numChars_no_newline (q : ℚ) : '\n' ∉ numChars q := by
  intro hc
  unfold numChars at hc
  simp only [List.mem_append, List.mem_cons, List.not_mem_nil] at hc
  rcases hc with (h | h) | h
  · split at h
    · simp only [List.mem_singleton] at h
      exact absurd h (by decide)
    · simp at h
  · have := mem_natDigits_digit _ _ h
    rw [not_digit_newline] at this
    exact absurd this (by decide)
  · split at h
    · simp at h
    · simp only [List.mem_cons] at h
      rcases h with h | h
      · exact absurd h (by decide)
      · have := mem_fixedDigits_digit _ _ _ h
        rw [not_digit_newline] at this
        exact absurd this (by decide)

theorem elemsRaw_no_newline (xs : List JsonValue)
    (hall : ∀ x ∈ xs, '\n' ∉ marshalRaw x) : '\n' ∉ elemsRaw xs := by
  induction xs with
  | nil => simp [elemsRaw]
  | cons x tail ih =>
    cases tail with
    | nil => simpa [elemsRaw] using hall x (by simp)
    | cons y rest =>
      rw [elemsRaw]
      intro hc
      rw [List.mem_append, List.mem_cons] at hc
      rcases hc with h | h | h
      · exact hall x (by simp) h
      · exact absurd h (by decide)
      · exact ih (fun z hz => hall z (by simp [List.mem_cons] at hz ⊢; tauto)) h

theorem membersRaw_no_newline (kvs : List (String × JsonValue))
    (hall : ∀ p ∈ kvs, '\n' ∉ marshalRaw p.2) : '\n' ∉ membersRaw kvs := by
  induction kvs with
  | nil => simp [membersRaw]
  | cons p tail ih =>
    cases tail with
    | nil =>
      rw [membersRaw]
      intro hc
      rw [List.mem_append, List.mem_cons] at hc
      rcases hc with h | h | h
      · exact quoteChars_no_newline _ h
      · exact absurd h (by decide)
      · exact hall p (by simp) h
    | cons r rest =>
      rw [membersRaw]
      intro hc
      rw [List.mem_append, List.mem_cons] at hc
      rcases hc with h | h | h
      · rw [List.mem_append, List.mem_cons] at h
        rcases h with h | h | h
        · exact quoteChars_no_newline _ h
        · exact absurd h (by decide)
        · exact hall p (by simp) h
      · exact absurd h (by decide)
      · exact ih (fun z hz => hall z (by simp [List.mem_cons] at hz ⊢; tauto)) h

theorem marshalRaw_no_newline (v : JsonValue) : '\n' ∉ marshalRaw v := by
  induction v using JsonValue.indOn with
  | hnull => decide
  | hbool b => cases b <;> decide
  | hnum q => exact numChars_no_newline q
  | hstr s => exact quoteChars_no_newline s
  | harr xs ih =>
    rw [marshalRaw]
    intro hc
    rw [List.mem_cons, List.mem_append, List.mem_singleton] at hc
    rcases hc with h | h | h
    · exact absurd h (by decide)
    · exact elemsRaw_no_newline xs ih h
    · exact absurd h (by decide)
  | hobj kvs ih =>
    rw [marshalRaw]
    intro hc
    rw [List.mem_cons, List.mem_append, List.mem_singleton] at hc
    rcases hc with h | h | h
    · exact absurd h (by decide)
    · exact membersRaw_no_newline kvs ih h
    · exact absurd h (by decide)

theorem newlineCount_marshalStr (v : JsonValue) : newlineCount (marshalStr v) = 0 := by
  simp only [newlineCount, marshalStr]
  exact List.count_eq_zero.mpr (marshalRaw_no_newline (canon v))

theorem formatJSON_false_eq (v : JsonValue) :
    formatJSON false v = "JSON-Body: " ++ marshalStr v := rfl

theorem formatJSON_true_eq (v : JsonValue) :
    formatJSON true v
      = "\n==========\nJSON START\n==========\n" ++ marshalIndentStr v
        ++ "\n\n==========\nJSON END\n==========" := by
  have hpre : ("\n==========" ++ "\nJSON START" ++ "\n==========" ++ "\n" : String)
      = "\n==========\nJSON START\n==========\n" := by decide
  have hsuf : ("\n" ++ "\n==========" ++ "\nJSON END" ++ "\n==========" : String)
      = "\n\n==========\nJSON END\n==========" := by decide
  conv_rhs => rw [← hpre, ← hsuf]
  show ("\n==========" ++ "\nJSON START" ++ "\n==========" ++ "\n" ++ marshalIndentStr v ++ "\n"
      ++ "\n==========" ++ "\nJSON END" ++ "\n==========") = _
  simp only [String.append_assoc]

/-! ## Claims about the pretty printer -/

/-- Claim C7 — `formatJSON` is total on decoded values (it is a plain
function into `String`) and never takes the serialization-failure branch:
its output never begins with the internal `Error formatting JSON` text (the
compact form begins with the label, the delimited form with a banner). -/
theorem print_total_no_error (v : JsonValue) (pretty : Bool) :
    (formatJSON pretty v).data.take 21 ≠ ("Error formatting JSON" : String).data := by
  have herr : ("Error formatting JSON" : String).data
      = 'E' :: ("rror formatting JSON" : String).data := by decide
  cases pretty
  · rw [formatJSON_false_eq, String.data_append]
    have hdata : ("JSON-Body: " : String).data = 'J' :: ("SON-Body: " : String).data := by decide
    rw [hdata, List.cons_append, List.take_succ_cons, herr]
    intro hc
    injection hc with h1 h2
    exact absurd h1 (by decide)
  · rw [formatJSON_true_eq, String.data_append, String.data_append]
    have hdata : ("\n==========\nJSON START\n==========\n" : String).data
        = '\n' :: ("==========\nJSON START\n==========\n" : String).data := by decide
    rw [hdata, List.cons_append, List.cons_append, List.take_succ_cons, herr]
    intro hc
    injection hc with h1 h2
    exact absurd h1 (by decide)

/-- Claim C9 — the two printing modes have fixed textual formats: compact is
the single-line (newline-free) minimal JSON after the fixed `JSON-Body: `
label; delimited is the 4-space-indented JSON wrapped in the fixed
`JSON START` / `JSON END` banners built from `==========` delimiter lines. -/
theorem print_mode_formats (v : JsonValue) :
    formatJSON false v = "JSON-Body: " ++ marshalStr v
    ∧ newlineCount (marshalStr v) = 0
    ∧ formatJSON true v
      = "\n==========\nJSON START\n==========\n" ++ marshalIndentStr v
        ++ "\n\n==========\nJSON END\n==========" :=
  ⟨formatJSON_false_eq v, newlineCount_marshalStr v, formatJSON_true_eq v⟩

/-! ## The JSON decoder (`json.Unmarshal` into `interface{}`, as
`handleRequest` invokes it)

A fuel-indexed recursive-descent parser over the character list, following
the standard JSON grammar exactly as Go's scanner accepts it: optional
whitespace between tokens, the six value forms, strings with the eight
simple escapes and `\uXXXX` (combining surrogate pairs, replacing unpaired
surrogates with U+FFFD, and rejecting raw control characters), numbers with
an optional minus sign, a no-leading-zero integer part, optional fraction
and exponent (each requiring at least one digit), object member values
inserted with last-wins semantics as Go's map assignment does, and only
trailing whitespace after the top-level value.  Numbers build the exact
rational of the decimal literal (the idealization of `float64` described at
`JsonValue`). -/

/-- JSON whitespace (space, tab, newline, carriage return). -/
def isWsB (c : Char) : Bool := c == ' ' || c == '\t' || c == '\n' || c == '\r'

/-- Drop leading JSON whitespace. -/
def skipWs : List Char → List Char
  | [] => []
  | c :: rest => if isWsB c then skipWs rest else c :: rest

/-- The single-character escapes of the JSON grammar. -/
def simpleUnescape (e : Char) : Option Char :=
  if e = '"' then some '"'
  else if e = '\\' then some '\\'
  else if e = '/' then some '/'
  else if e = 'b' then some (Char.ofNat 8)
  else if e = 'f' then some (Char.ofNat 12)
  else if e = 'n' then some '\n'
  else if e = 'r' then some '\r'
  else if e = 't' then some '\t'
  else none

/-- Value of one hexadecimal digit character. -/
def hexVal (c : Char) : Option Nat :=
  if 48 ≤ c.toNat ∧ c.toNat ≤ 57 then some (c.toNat - 48)
  else if 97 ≤ c.toNat ∧ c.toNat ≤ 102 then some (c.toNat - 87)
  else if 65 ≤ c.toNat ∧ c.toNat ≤ 70 then some (c.toNat - 55)
  else none

/-- The code point of a decoded surrogate pair. -/
def surrPair (hi lo : Nat) : Nat := 65536 + (hi - 55296) * 1024 + (lo - 56320)

/-- Parse the body of a string literal after its opening quote, accumulating
decoded characters in reverse.  Surrogate handling follows Go's `unquote`:
a high surrogate followed by a `\u` low surrogate combines; any other
surrogate becomes U+FFFD (without consuming the following escape). -/
def parseStringAux : List Char → List Char → Option (String × List Char)
  | _, [] => none
  | acc, '\\' :: 'u' :: h1 :: h2 :: h3 :: h4 :: rest3 =>
    (match hexVal h1, hexVal h2, hexVal h3, hexVal h4 with
      | some a, some b, some c2, some d =>
        let n := ((a * 16 + b) * 16 + c2) * 16 + d
        if 55296 ≤ n ∧ n ≤ 56319 then
          match hr3 : rest3 with
          | '\\' :: 'u' :: g1 :: g2 :: g3 :: g4 :: rest4 =>
            (match hexVal g1, hexVal g2, hexVal g3, hexVal g4 with
              | some a2, some b2, some c3, some d2 =>
                let m := ((a2 * 16 + b2) * 16 + c3) * 16 + d2
                if 56320 ≤ m ∧ m ≤ 57343 then
                  parseStringAux (Char.ofNat (surrPair n m) :: acc) rest4
                else parseStringAux (Char.ofNat 65533 :: acc) rest3
              | _, _, _, _ => parseStringAux (Char.ofNat 65533 :: acc) rest3)
          | _ => parseStringAux (Char.ofNat 65533 :: acc) rest3
        else if 55296 ≤ n ∧ n ≤ 57343 then
          parseStringAux (Char.ofNat 65533 :: acc) rest3
        else parseStringAux (Char.ofNat n :: acc) rest3
      | _, _, _, _ => none)
  | acc, '\\' :: e :: rest2 =>
    (match simpleUnescape e with
      | some c2 => parseStringAux (c2 :: acc) rest2
      | none => none)
  | _, ['\\'] => none
  | acc, c :: rest =>
    if c = '"' then some (String.mk acc.reverse, rest)
    else if c.toNat < 32 then none
    else parseStringAux (c :: acc) rest
termination_by _ s => s.length
decreasing_by
  all_goals simp_wf
  all_goals try subst hr3
  all_goals try simp only [List.length_cons]
  all_goals omega

/-- Munch a maximal digit run, returning accumulated value, digit count, and
the remainder. -/
def digitsVal : Nat → Nat → List Char → Nat × Nat × List Char
  | v, cnt, [] => (v, cnt, [])
  | v, cnt, c :: rest =>
    if isDigitB c then digitsVal (v * 10 + (c.toNat - 48)) (cnt + 1) rest
    else (v, cnt, c :: rest)

/-- The rational value of a parsed numeric literal: sign, integer part,
fraction (value and digit count), exponent sign and value.  Written as a
single integer divided by a power of ten, so its denominator always divides
a power of ten. -/
def ratFromParts (neg : Bool) (ip fv fc : Nat) (esign : Bool) (ev : Nat) : ℚ :=
  let n : ℤ := ((ip * 10 ^ fc + fv : ℕ) : ℤ) * (if esign then 1 else (10 : ℤ) ^ ev)
  let d : ℤ := (10 : ℤ) ^ (fc + if esign then ev else 0)
  (if neg then -1 else 1) * ((n : ℚ) / (d : ℚ))

/-- Parse the exponent digits (at least one required). -/
def parseExpDigits (neg : Bool) (ip fv fc : Nat) (esign : Bool) (s : List Char) :
    Option (ℚ × List Char) :=
  match digitsVal 0 0 s with
  | (ev, ec, r) => if ec = 0 then none else some (ratFromParts neg ip fv fc esign ev, r)

/-- Parse the exponent sign and digits after `e`/`E`. -/
def parseExpSign (neg : Bool) (ip fv fc : Nat) (r : List Char) : Option (ℚ × List Char) :=
  match r with
  | '+' :: r2 => parseExpDigits neg ip fv fc false r2
  | '-' :: r2 => parseExpDigits neg ip fv fc true r2
  | r2 => parseExpDigits neg ip fv fc false r2

/-- Parse an optional exponent part. -/
def parseExpPart (neg : Bool) (ip fv fc : Nat) (s : List Char) : Option (ℚ × List Char) :=
  match s with
  | c :: r =>
    if c = 'e' ∨ c = 'E' then parseExpSign neg ip fv fc r
    else some (ratFromParts neg ip fv fc false 0, c :: r)
  | [] => some (ratFromParts neg ip fv fc false 0, [])

/-- Parse an optional fraction part (a point must be followed by at least one
digit) and then the optional exponent. -/
def parseFracExp (neg : Bool) (ip : Nat) (s : List Char) : Option (ℚ × List Char) :=
  match s with
  | '.' :: r =>
    match digitsVal 0 0 r with
    | (fv, fc, r2) => if fc = 0 then none else parseExpPart neg ip fv fc r2
  | _ => parseExpPart neg ip 0 0 s

/-- The unsigned part of a numeric literal. -/
def parseNumberBody (neg : Bool) (s : List Char) : Option (ℚ × List Char) :=
  match s with
  | [] => none
  | c :: r =>
    if c = '0' then parseFracExp neg 0 r
    else if isDigitB c then
      match digitsVal 0 0 (c :: r) with
      | (iv, _, r2) => parseFracExp neg iv r2
    else none

/-- Parse a numeric literal: optional minus sign, then either a single `0` or
a nonzero-led digit run (the grammar's no-leading-zero rule), then fraction
and exponent. -/
def parseNumber (s : List Char) : Option (ℚ × List Char) :=
  match s with
  | '-' :: r => parseNumberBody true r
  | _ => parseNumberBody false s

/-- Insert into an association map with Go's `m[key] = value` semantics: an
existing key's value is replaced in place, a fresh key is appended. -/
def upsert (l : List (String × JsonValue)) (k : String) (v : JsonValue) :
    List (String × JsonValue) :=
  match l with
  | [] => [(k, v)]
  | p :: rest => if p.1 = k then (k, v) :: rest else p :: upsert rest k v

/-- Fold a parsed member list into the object map, later duplicates winning. -/
def buildObj (ms : List (String × JsonValue)) : List (String × JsonValue) :=
  ms.foldl (fun acc p => upsert acc p.1 p.2) []

mutual
/-- Parse one JSON value (fuel-indexed; callers supply more fuel than the
input length, which the round-trip lemmas show is enough). -/
def parseValue : Nat → List Char → Option (JsonValue × List Char)
  | 0, _ => none
  | fuel + 1, s =>
    match skipWs s with
    | [] => none
    | c :: rest =>
      if c = '\x7b' then
        match skipWs rest with
        | [] => none
        | c2 :: r2 =>
          if c2 = '\x7d' then some (.obj [], r2)
          else
            match parseMembers fuel (c2 :: r2) with
            | some (ms, r3) => some (.obj (buildObj ms), r3)
            | none => none
      else if c = '[' then
        match skipWs rest with
        | [] => none
        | c2 :: r2 =>
          if c2 = ']' then some (.arr [], r2)
          else
            match parseElems fuel (c2 :: r2) with
            | some (vs, r3) => some (.arr vs, r3)
            | none => none
      else if c = '"' then
        match parseStringAux [] rest with
        | some (str, r2) => some (.str str, r2)
        | none => none
      else if c = 't' then
        match rest with
        | 'r' :: 'u' :: 'e' :: r2 => some (.bool true, r2)
        | _ => none
      else if c = 'f' then
        match rest with
        | 'a' :: 'l' :: 's' :: 'e' :: r2 => some (.bool false, r2)
        | _ => none
      else if c = 'n' then
        match rest with
        | 'u' :: 'l' :: 'l' :: r2 => some (.null, r2)
        | _ => none
      else if c = '-' ∨ isDigitB c then
        match parseNumber (c :: rest) with
        | some (q, r2) => some (.num q, r2)
        | none => none
      else none
/-- Parse one-or-more comma-separated object members up to the closing brace
(the empty object is handled before entry). -/
def parseMembers : Nat → List Char → Option (List (String × JsonValue) × List Char)
  | 0, _ => none
  | fuel + 1, s =>
    match s with
    | '"' :: rest =>
      match parseStringAux [] rest with
      | some (k, r1) =>
        (match skipWs r1 with
          | ':' :: r2 =>
            match parseValue fuel r2 with
            | some (v, r3) =>
              (match skipWs r3 with
                | ',' :: r4 =>
                  match parseMembers fuel (skipWs r4) with
                  | some (ms, r5) => some ((k, v) :: ms, r5)
                  | none => none
                | '\x7d' :: r4 => some ([(k, v)], r4)
                | _ => none)
            | none => none
          | _ => none)
      | none => none
    | _ => none
/-- Parse one-or-more comma-separated array elements up to the closing
bracket (the empty array is handled before entry). -/
def parseElems : Nat → List Char → Option (List JsonValue × List Char)
  | 0, _ => none
  | fuel + 1, s =>
    match parseValue fuel s with
    | some (v, r) =>
      (match skipWs r with
        | ',' :: r2 =>
          match parseElems fuel r2 with
          | some (vs, r3) => some (v :: vs, r3)
          | none => none
        | ']' :: r2 => some ([v], r2)
        | _ => none)
    | none => none
end

/-- `json.Unmarshal` of a request body into `interface{}`: the parsed value
when the whole input is one JSON document (possibly surrounded by
whitespace), and a failure otherwise. -/
def decode (t : String) : Option JsonValue :=
  match parseValue (t.data.length + 1) t.data with
  | some (v, rest) => if skipWs rest = [] then some v else none
  | none => none

/-- The text that follows the fixed `JSON-Body: ` label of the compact
output. -/
def afterLabel (s : String) : String :=
  String.mk (s.data.drop (("JSON-Body: " : String).data.length))

/-- Structural equivalence of decoded values: equal once every mapping level
is put in canonical (sorted) key order — equality of the underlying
unordered maps. -/
def structEquiv (a b : JsonValue) : Prop := canon a = canon b

/-- A rational that is the value of a finite decimal literal (as every
decoded number is). -/
def DecFinite (q : ℚ) : Prop := ∃ k, q.den ∣ 10 ^ k

/-- The values `decode` can produce: numbers are finite decimals and every
mapping level has distinct keys (Go map keys are unique). -/
inductive WF : JsonValue → Prop
  | null : WF .null
  | bool (b : Bool) : WF (.bool b)
  | num (q : ℚ) : DecFinite q → WF (.num q)
  | str (s : String) : WF (.str s)
  | arr (xs : List JsonValue) : (∀ x ∈ xs, WF x) → WF (.arr xs)
  | obj (kvs : List (String × JsonValue)) : (∀ p ∈ kvs, WF p.2) →
      (kvs.map Prod.fst).Nodup → WF (.obj kvs)

/-! ## Round trip, part 1: strings

Parsing an escaped character run undoes the escaping, character by
character. -/

theorem hexVal_hexDigitChar (x : Nat) (h : x < 16) : hexVal (hexDigitChar x) = some x := by
  interval_cases x <;> decide

theorem hexVal_zero : hexVal '0' = some 0 := by decide

theorem ps_u00 (acc rest : List Char) (m : Nat) (hm : m < 256) :
    parseStringAux acc
        ('\\' :: 'u' :: '0' :: '0' :: hexDigitChar (m / 16) :: hexDigitChar (m % 16) :: rest)
      = parseStringAux (Char.ofNat m :: acc) rest := by
  simp only [parseStringAux, hexVal_zero, hexVal_hexDigitChar (m / 16) (by omega),
    hexVal_hexDigitChar (m % 16) (by omega)]
  rw [if_neg (by omega), if_neg (by omega)]
  have hx : ((0 * 16 + 0) * 16 + m / 16) * 16 + m % 16 = m := by omega
  rw [hx]

theorem ps_escape_step (c : Char) (acc rest : List Char) :
    parseStringAux acc (escapeChar c ++ rest) = parseStringAux (c :: acc) rest := by
  unfold escapeChar
  split_ifs with h1 h2 h3 h4 h5 h6 h7 h8
  · subst h1; simp [parseStringAux, simpleUnescape]
  · subst h2; simp [parseStringAux, simpleUnescape]
  · have hm : c.toNat < 256 := by
      rcases h3 with h | h | h <;> subst h <;> decide
    simp only [List.cons_append, List.nil_append]
    rw [ps_u00 acc rest c.toNat hm, Char.ofNat_toNat]
  · subst h5; simp [parseStringAux, simpleUnescape]
  · subst h6; simp [parseStringAux, simpleUnescape]
  · subst h7; simp [parseStringAux, simpleUnescape]
  · simp only [List.cons_append, List.nil_append]
    rw [ps_u00 acc rest c.toNat (by omega), Char.ofNat_toNat]
  · rcases h8 with h | h
    · have hcc : c = Char.ofNat 8232 := by rw [← h, Char.ofNat_toNat]
      subst hcc
      have e1 : hexDigitChar ((Char.ofNat 8232).toNat % 16) = '8' := by decide
      simp only [List.cons_append, List.nil_append, e1]
      simp [parseStringAux, show hexVal '2' = some 2 from by decide,
        show hexVal '0' = some 0 from by decide, show hexVal '8' = some 8 from by decide]
    · have hcc : c = Char.ofNat 8233 := by rw [← h, Char.ofNat_toNat]
      subst hcc
      have e1 : hexDigitChar ((Char.ofNat 8233).toNat % 16) = '9' := by decide
      simp only [List.cons_append, List.nil_append, e1]
      simp [parseStringAux, show hexVal '2' = some 2 from by decide,
        show hexVal '0' = some 0 from by decide, show hexVal '9' = some 9 from by decide]
  · simp only [List.cons_append, List.nil_append]
    simp [parseStringAux, h1, h2, h4]

theorem ps_escape_list (sl : List Char) : ∀ acc rest,
    parseStringAux acc (sl.flatMap escapeChar ++ '"' :: rest)
      = some (String.mk (acc.reverse ++ sl), rest) := by
  induction sl with
  | nil => intro acc rest; simp [parseStringAux]
  | cons c tl ih =>
    intro acc rest
    rw [List.flatMap_cons, List.append_assoc, ps_escape_step, ih]
    simp

theorem parse_quoteChars (s : String) (rest : List Char) :
    parseStringAux [] (s.data.flatMap escapeChar ++ '"' :: rest) = some (s, rest) := by
  rw [ps_escape_list]
  rfl

/-! ## Round trip, part 2: numbers

Parsing a rendered decimal recovers the exact rational, provided the
following characters cannot extend the literal (which is the case after a
value inside an array, an object, or at the end of input). -/

def headIsDigit : List Char → Bool
  | [] => false
  | c :: _ => isDigitB c

def numBoundary (l : List Char) : Bool :=
  match l with
  | [] => true
  | c :: _ => !(isDigitB c || c == '.' || c == 'e' || c == 'E')

theorem digitChar_toNat (r : Nat) (h : r < 10) : (digitChar r).toNat = 48 + r := by
  interval_cases r <;> decide

theorem digitsVal_stop (v cnt : Nat) (rest : List Char) (h : headIsDigit rest = false) :
    digitsVal v cnt rest = (v, cnt, rest) := by
  cases rest with
  | nil => rfl
  | cons c t =>
    simp only [headIsDigit] at h
    simp [digitsVal, h]

theorem digitsVal_run (ds : List Char) : ∀ v cnt rest, (∀ c ∈ ds, isDigitB c = true) →
    headIsDigit rest = false →
    digitsVal v cnt (ds ++ rest)
      = (ds.foldl (fun a c => a * 10 + (c.toNat - 48)) v, cnt + ds.length, rest) := by
  induction ds with
  | nil => intro v cnt rest _ hrest; simpa using digitsVal_stop v cnt rest hrest
  | cons c t ih =>
    intro v cnt rest hds hrest
    have hc : isDigitB c = true := hds c (by simp)
    rw [List.cons_append, digitsVal]
    simp only [hc, if_true]
    rw [ih _ _ _ (fun x hx => hds x (by simp [hx])) hrest]
    simp only [List.foldl_cons, List.length_cons]
    have : cnt + 1 + t.length = cnt + (t.length + 1) := by omega
    rw [this]

theorem natDigits_val (n : Nat) :
    (natDigits n).foldl (fun a c => a * 10 + (c.toNat - 48)) 0 = n := by
  induction n using Nat.strong_induction_on with
  | _ n ih =>
    rw [natDigits]
    split
    · rename_i h
      simp [digitChar_toNat n h]
    · rename_i h
      rw [List.foldl_append]
      have hd := ih (n / 10) (by omega)
      rw [hd]
      simp [digitChar_toNat (n % 10) (by omega)]
      omega

theorem natDigits_all_digits (n : Nat) : ∀ c ∈ natDigits n, isDigitB c = true :=
  mem_natDigits_digit n

theorem fixedDigits_length (k : Nat) : ∀ m, (fixedDigits k m).length = k := by
  induction k with
  | zero => intro m; rfl
  | succ k ih => intro m; simp [fixedDigits, ih]

theorem fixedDigits_val (k : Nat) : ∀ m, m < 10 ^ k →
    (fixedDigits k m).foldl (fun a c => a * 10 + (c.toNat - 48)) 0 = m := by
  induction k with
  | zero => intro m hm; interval_cases m; rfl
  | succ k ih =>
    intro m hm
    have hdiv : m / 10 < 10 ^ k := by
      rw [pow_succ] at hm
      omega
    rw [fixedDigits, List.foldl_append, ih (m / 10) hdiv]
    simp [digitChar_toNat (m % 10) (by omega)]
    omega

theorem natDigits_cons_head (n : Nat) :
    ∃ c t, natDigits n = c :: t ∧ isDigitB c = true ∧ (1 ≤ n → c ≠ '0') := by
  induction n using Nat.strong_induction_on with
  | _ n ih =>
    rw [natDigits]
    split
    · rename_i h
      refine ⟨digitChar n, [], rfl, isDigitB_digitChar n h, fun h1 hc => ?_⟩
      have := digitChar_toNat n h
      rw [hc] at this
      simp at this
      omega
    · rename_i h
      obtain ⟨c, t, heq, hdig, h0⟩ := ih (n / 10) (by omega)
      refine ⟨c, t ++ [digitChar (n % 10)], by rw [heq]; simp, hdig, fun _ => h0 (by omega)⟩


theorem findExpAux_dvd (d : Nat) : ∀ fuel k0, (∃ k, k0 ≤ k ∧ k ≤ k0 + fuel ∧ d ∣ 10 ^ k) →
    d ∣ 10 ^ findExpAux d k0 fuel := by
  intro fuel
  induction fuel with
  | zero =>
    intro k0 ⟨k, h1, h2, h3⟩
    have : k = k0 := by omega
    subst this
    exact h3
  | succ fuel ih =>
    intro k0 ⟨k, h1, h2, h3⟩
    rw [findExpAux]
    split
    · assumption
    · rename_i hnot
      refine ih (k0 + 1) ⟨k, ?_, by omega, h3⟩
      rcases Nat.eq_or_lt_of_le h1 with h | h
      · subst h; exact absurd h3 hnot
      · omega

theorem exists_small_exp (d j : Nat) (hj : d ∣ 10 ^ j) : ∃ k, k ≤ d ∧ d ∣ 10 ^ k := by
  have h10 : (10 : ℕ) ^ j = 2 ^ j * 5 ^ j := by
    rw [← Nat.mul_pow]
  rw [h10] at hj
  obtain ⟨d1, d2, hd1, hd2, rfl⟩ := dvd_mul.mp hj
  obtain ⟨a, ha, rfl⟩ := (Nat.dvd_prime_pow Nat.prime_two).mp hd1
  obtain ⟨b, hb, rfl⟩ := (Nat.dvd_prime_pow (by norm_num : Nat.Prime 5)).mp hd2
  refine ⟨max a b, ?_, ?_⟩
  · have ha2 : a < 2 ^ a := Nat.lt_two_pow a
    have hb5 : b < 5 ^ b := lt_of_lt_of_le (Nat.lt_two_pow b)
      (Nat.pow_le_pow_left (by norm_num) b)
    have h1 : 2 ^ a ≤ 2 ^ a * 5 ^ b := Nat.le_mul_of_pos_right _ (pow_pos (by norm_num) b)
    have h2 : 5 ^ b ≤ 2 ^ a * 5 ^ b := Nat.le_mul_of_pos_left _ (pow_pos (by norm_num) a)
    omega
  · have h10m : (10 : ℕ) ^ max a b = 2 ^ max a b * 5 ^ max a b := by
      rw [← Nat.mul_pow]
    rw [h10m]
    exact mul_dvd_mul (pow_dvd_pow 2 (le_max_left a b)) (pow_dvd_pow 5 (le_max_right a b))

theorem decExp_dvd (d : Nat) (h : ∃ j, d ∣ 10 ^ j) : d ∣ 10 ^ decExp d := by
  obtain ⟨j, hj⟩ := h
  obtain ⟨k, hk, hdk⟩ := exists_small_exp d j hj
  exact findExpAux_dvd d (d + 1) 0 ⟨k, by omega, by omega, hdk⟩

theorem numBoundary_facts (l : List Char) (h : numBoundary l = true) :
    headIsDigit l = false
    ∧ (∀ c t, l = c :: t → c ≠ '.' ∧ c ≠ 'e' ∧ c ≠ 'E') := by
  cases l with
  | nil => exact ⟨rfl, fun c t hct => by simp at hct⟩
  | cons c t =>
    simp only [numBoundary, Bool.not_eq_true', Bool.or_eq_false_iff, beq_eq_false_iff_ne] at h
    refine ⟨by simp [headIsDigit, h.1.1.1], fun c2 t2 hct => ?_⟩
    injection hct with h1 h2
    subst h1
    exact ⟨h.1.1.2, h.1.2, h.2⟩

theorem parseExpPart_stop (neg : Bool) (ip fv fc : Nat) (rest : List Char)
    (hrest : numBoundary rest = true) :
    parseExpPart neg ip fv fc rest = some (ratFromParts neg ip fv fc false 0, rest) := by
  cases rest with
  | nil => rfl
  | cons c t =>
    obtain ⟨_, hspec⟩ := numBoundary_facts _ hrest
    obtain ⟨_, he, hE⟩ := hspec c t rfl
    rw [parseExpPart]
    rw [if_neg (by tauto)]


theorem parseFracExp_frac (neg : Bool) (ip fv k : Nat) (hk : k ≠ 0) (hfv : fv < 10 ^ k)
    (rest : List Char) (hrest : numBoundary rest = true) :
    parseFracExp neg ip ('.' :: (fixedDigits k fv ++ rest))
      = some (ratFromParts neg ip fv k false 0, rest) := by
  rw [parseFracExp]
  rw [digitsVal_run (fixedDigits k fv) 0 0 rest (mem_fixedDigits_digit k fv)
    (numBoundary_facts rest hrest).1]
  rw [fixedDigits_val k fv hfv, fixedDigits_length k fv]
  simp only [Nat.zero_add, hk, if_false]
  exact parseExpPart_stop neg ip fv k rest hrest

theorem parseFracExp_nofrac (neg : Bool) (ip : Nat) (rest : List Char)
    (hrest : numBoundary rest = true) :
    parseFracExp neg ip rest = some (ratFromParts neg ip 0 0 false 0, rest) := by
  cases rest with
  | nil => rfl
  | cons c t =>
    obtain ⟨_, hspec⟩ := numBoundary_facts _ hrest
    obtain ⟨hdot, _, _⟩ := hspec c t rfl
    rw [parseFracExp.eq_def]
    split
    · rename_i h
      injection h with h1 h2
      exact absurd h1 hdot
    · exact parseExpPart_stop neg ip 0 0 _ hrest

theorem pnb_digits (neg : Bool) (ip : Nat) (X : List Char) (hX : headIsDigit X = false) :
    parseNumberBody neg (natDigits ip ++ X) = parseFracExp neg ip X := by
  by_cases hip : ip = 0
  · subst hip
    have h0 : natDigits 0 = ['0'] := by rw [natDigits]; rfl
    rw [h0, List.cons_append, List.nil_append, parseNumberBody]
    simp
  · obtain ⟨c, t, heq, hdig, h0⟩ := natDigits_cons_head ip
    have hc0 : c ≠ '0' := h0 (by omega)
    rw [heq, List.cons_append, parseNumberBody]
    rw [if_neg (by simpa using hc0), if_pos hdig]
    have hrun := digitsVal_run (c :: t) 0 0 X (by rw [← heq]; exact natDigits_all_digits ip) hX
    rw [List.cons_append] at hrun
    rw [hrun]
    have hval : (c :: t).foldl (fun a c => a * 10 + (c.toNat - 48)) 0 = ip := by
      rw [← heq]; exact natDigits_val ip
    rw [hval]

theorem ratFromParts_noexp (neg : Bool) (ip fv fc : Nat) :
    ratFromParts neg ip fv fc false 0
      = (if neg then -1 else 1) * (((ip * 10 ^ fc + fv : ℕ) : ℚ) / ((10 : ℚ) ^ fc)) := by
  unfold ratFromParts
  push_cast
  ring

theorem numChars_eq (q : ℚ) :
    numChars q = (if q.num < 0 then ['-'] else [])
      ++ natDigits ((q.num * ((10 : ℤ) ^ decExp q.den / (q.den : ℤ))).natAbs / 10 ^ decExp q.den)
      ++ (if decExp q.den = 0 then []
          else '.' :: fixedDigits (decExp q.den)
            ((q.num * ((10 : ℤ) ^ decExp q.den / (q.den : ℤ))).natAbs % 10 ^ decExp q.den)) := rfl

theorem parseNumber_numChars (q : ℚ) (hq : DecFinite q) (rest : List Char)
    (hrest : numBoundary rest = true) :
    parseNumber (numChars q ++ rest) = some (q, rest) := by
  have hden_pos : 0 < q.den := q.pos
  have hdvd : q.den ∣ 10 ^ decExp q.den := decExp_dvd q.den hq
  set k := decExp q.den with hk
  set m : ℤ := q.num * ((10 : ℤ) ^ k / (q.den : ℤ)) with hm
  set a := m.natAbs with ha
  have hdvdZ : (q.den : ℤ) ∣ (10 : ℤ) ^ k := by exact_mod_cast Int.natCast_dvd_natCast.mpr hdvd
  have hquot : ((10 : ℤ) ^ k / (q.den : ℤ)) * (q.den : ℤ) = (10 : ℤ) ^ k :=
    Int.ediv_mul_cancel hdvdZ
  have hdenZ : (0 : ℤ) < (q.den : ℤ) := by exact_mod_cast hden_pos
  have h10k : (0 : ℤ) < 10 ^ k := pow_pos (by norm_num) k
  have hqpos : 0 < (10 : ℤ) ^ k / (q.den : ℤ) := by
    by_contra hle
    push_neg at hle
    nlinarith [hquot]
  have hmz : m * (q.den : ℤ) = q.num * 10 ^ k := by
    rw [hm, mul_assoc, hquot]
  have hden_ne : ((q.den : ℚ)) ≠ 0 := by positivity
  have hten_ne : ((10 : ℚ) ^ k) ≠ 0 := by positivity
  have hmq : (m : ℚ) = q * (10 : ℚ) ^ k := by
    have h1 : (m : ℚ) * (q.den : ℚ) = (q.num : ℚ) * (10 : ℚ) ^ k := by
      exact_mod_cast congrArg (fun z : ℤ => (z : ℚ)) hmz
    have h2 : q = (q.num : ℚ) / (q.den : ℚ) := (Rat.num_div_den q).symm
    rw [h2]
    field_simp at h1 ⊢
    linarith [h1]
  have hsplit : a / 10 ^ k * 10 ^ k + a % 10 ^ k = a := by
    have h := Nat.div_add_mod a (10 ^ k)
    rw [Nat.mul_comm] at h
    exact h
  have hfinal : ∀ neg : Bool, ((neg = true) ↔ q.num < 0) →
      ratFromParts neg (a / 10 ^ k) (a % 10 ^ k) k false 0 = q := by
    intro neg hneg
    rw [ratFromParts_noexp, hsplit]
    cases neg with
    | true =>
      have hqn : q.num < 0 := hneg.mp rfl
      have hmneg : m < 0 := by
        rw [hm]
        exact mul_neg_of_neg_of_pos hqn hqpos
      have haq : ((a : ℚ)) = -(m : ℚ) := by
        have h1 : (a : ℤ) = -m := by omega
        exact_mod_cast congrArg (fun z : ℤ => (z : ℚ)) h1
      rw [if_pos rfl, haq, hmq]
      field_simp
    | false =>
      have hqn : 0 ≤ q.num := by
        by_contra hc
        push_neg at hc
        exact absurd (hneg.mpr hc) (by simp)
      have hmpos : 0 ≤ m := by
        rw [hm]
        exact mul_nonneg hqn (le_of_lt hqpos)
      have haq : ((a : ℚ)) = (m : ℚ) := by
        have h1 : (a : ℤ) = m := by omega
        exact_mod_cast congrArg (fun z : ℤ => (z : ℚ)) h1
      rw [if_neg (by simp), haq, hmq]
      field_simp
  have hXbound : headIsDigit ((if k = 0 then []
      else '.' :: fixedDigits k (a % 10 ^ k)) ++ rest) = false := by
    by_cases hk0 : k = 0
    · simp only [hk0, if_pos rfl, List.nil_append]
      exact (numBoundary_facts rest hrest).1
    · simp only [if_neg hk0, List.cons_append, headIsDigit]
      decide
  have hpn_pos : ∀ l : List Char, headIsDigit l = true →
      parseNumber l = parseNumberBody false l := by
    intro l hl
    cases l with
    | nil => simp [headIsDigit] at hl
    | cons c t =>
      simp only [headIsDigit] at hl
      rw [parseNumber.eq_def]
      split
      · rename_i heq
        injection heq with h1 h2
        rw [h1] at hl
        exact absurd hl (by decide)
      · rfl
  rw [numChars_eq, ← hk, ← hm, ← ha]
  by_cases hneg : q.num < 0
  · rw [if_pos hneg]
    simp only [List.cons_append, List.nil_append, List.append_assoc]
    rw [parseNumber]
    rw [pnb_digits true (a / 10 ^ k) _ hXbound]
    by_cases hk0 : k = 0
    · rw [if_pos hk0, List.nil_append, parseFracExp_nofrac true _ rest hrest]
      have h := hfinal true (by simp [hneg])
      rw [hk0] at h ⊢
      simp only [pow_zero, Nat.div_one, Nat.mod_one] at h ⊢
      rw [h]
    · rw [if_neg hk0]
      simp only [List.cons_append]
      rw [parseFracExp_frac true (a / 10 ^ k) (a % 10 ^ k) k hk0
        (Nat.mod_lt _ (pow_pos (by norm_num) k)) rest hrest]
      rw [hfinal true (by simp [hneg])]
  · rw [if_neg hneg]
    simp only [List.nil_append, List.append_assoc]
    have hhead : headIsDigit (natDigits (a / 10 ^ k)
        ++ ((if k = 0 then [] else '.' :: fixedDigits k (a % 10 ^ k)) ++ rest)) = true := by
      obtain ⟨c, t, heq, hdig, _⟩ := natDigits_cons_head (a / 10 ^ k)
      rw [heq]
      simp [headIsDigit, hdig]
    rw [hpn_pos _ hhead, pnb_digits false _ _ hXbound]
    by_cases hk0 : k = 0
    · rw [if_pos hk0, List.nil_append, parseFracExp_nofrac false _ rest hrest]
      have h := hfinal false (by simp [hneg])
      rw [hk0] at h ⊢
      simp only [pow_zero, Nat.div_one, Nat.mod_one] at h ⊢
      rw [h]
    · rw [if_neg hk0]
      simp only [List.cons_append]
      rw [parseFracExp_frac false (a / 10 ^ k) (a % 10 ^ k) k hk0
        (Nat.mod_lt _ (pow_pos (by norm_num) k)) rest hrest]
      rw [hfinal false (by simp [hneg])]

/-! ## Round trip, part 3: values

Parsing the marshalled text of a well-formed tree recovers the tree: the
character-class facts feed the parser's dispatch, and the mutual value /
element / member lemmas compose the string and number round trips. -/

theorem digit_facts (c : Char) (h : isDigitB c = true) :
    isWsB c = false ∧ c ≠ '\x7b' ∧ c ≠ '[' ∧ c ≠ '"' ∧ c ≠ 't' ∧ c ≠ 'f' ∧ c ≠ 'n'
      ∧ c ≠ ']' ∧ c ≠ '\x7d' ∧ c ≠ ',' ∧ c ≠ '-' := by
  refine ⟨?_, ?_, ?_, ?_, ?_, ?_, ?_, ?_, ?_, ?_, ?_⟩
  · by_contra hw
    rw [Bool.not_eq_false] at hw
    simp only [isWsB, Bool.or_eq_true, beq_iff_eq] at hw
    rcases hw with ((hc | hc) | hc) | hc <;> subst hc <;> exact absurd h (by decide)
  all_goals intro hc; subst hc; exact absurd h (by decide)

theorem skipWs_cons (c : Char) (l : List Char) (h : isWsB c = false) :
    skipWs (c :: l) = c :: l := by
  simp [skipWs, h]

theorem numBoundary_of_head (c : Char) (l : List Char) (h1 : isDigitB c = false)
    (h2 : c ≠ '.') (h3 : c ≠ 'e') (h4 : c ≠ 'E') : numBoundary (c :: l) = true := by
  simp [numBoundary, h1, h2, h3, h4]

theorem numBoundary_comma (l : List Char) : numBoundary (',' :: l) = true :=
  numBoundary_of_head _ _ (by decide) (by decide) (by decide) (by decide)

theorem numBoundary_rbracket (l : List Char) : numBoundary (']' :: l) = true :=
  numBoundary_of_head _ _ (by decide) (by decide) (by decide) (by decide)

theorem numBoundary_rbrace (l : List Char) : numBoundary ('\x7d' :: l) = true :=
  numBoundary_of_head _ _ (by decide) (by decide) (by decide) (by decide)

theorem marshalRaw_head (w : JsonValue) :
    ∃ c t, marshalRaw w = c :: t ∧ isWsB c = false ∧ c ≠ ']' ∧ c ≠ '\x7d' ∧ c ≠ ',' := by
  cases w with
  | null => exact ⟨'n', _, rfl, by decide, by decide, by decide, by decide⟩
  | bool b => cases b with
    | true => exact ⟨'t', _, rfl, by decide, by decide, by decide, by decide⟩
    | false => exact ⟨'f', _, rfl, by decide, by decide, by decide, by decide⟩
  | str s => exact ⟨'"', _, rfl, by decide, by decide, by decide, by decide⟩
  | arr xs => exact ⟨'[', _, rfl, by decide, by decide, by decide, by decide⟩
  | obj kvs => exact ⟨'\x7b', _, rfl, by decide, by decide, by decide, by decide⟩
  | num q =>
    rw [show marshalRaw (.num q) = numChars q from rfl, numChars_eq]
    by_cases hneg : q.num < 0
    · rw [if_pos hneg]
      exact ⟨'-', _, rfl, by decide, by decide, by decide, by decide⟩
    · obtain ⟨c, t, heq, hdig, _⟩ := natDigits_cons_head
        ((q.num * ((10 : ℤ) ^ decExp q.den / (q.den : ℤ))).natAbs / 10 ^ decExp q.den)
      obtain ⟨hws, _, _, _, _, _, _, hrb, hbr, hcm, _⟩ := digit_facts c hdig
      rw [if_neg hneg, List.nil_append, heq, List.cons_append]
      exact ⟨c, _, rfl, hws, hrb, hbr, hcm⟩

theorem pv_null (f : Nat) (r : List Char) :
    parseValue (f + 1) ('n' :: 'u' :: 'l' :: 'l' :: r) = some (.null, r) := by
  simp [parseValue, skipWs, isWsB]

theorem pv_true (f : Nat) (r : List Char) :
    parseValue (f + 1) ('t' :: 'r' :: 'u' :: 'e' :: r) = some (.bool true, r) := by
  simp [parseValue, skipWs, isWsB]

theorem pv_false (f : Nat) (r : List Char) :
    parseValue (f + 1) ('f' :: 'a' :: 'l' :: 's' :: 'e' :: r) = some (.bool false, r) := by
  simp [parseValue, skipWs, isWsB]

theorem pv_str (f : Nat) (sl : List Char) :
    parseValue (f + 1) ('"' :: sl)
      = match parseStringAux [] sl with
        | some (s, r2) => some (.str s, r2)
        | none => none := by
  simp [parseValue, skipWs, isWsB]

theorem pv_num (f : Nat) (c : Char) (t : List Char)
    (hws : isWsB c = false) (h1 : c ≠ '\x7b') (h2 : c ≠ '[') (h3 : c ≠ '"') (h4 : c ≠ 't')
    (h5 : c ≠ 'f') (h6 : c ≠ 'n') (hg : c = '-' ∨ isDigitB c = true) :
    parseValue (f + 1) (c :: t)
      = match parseNumber (c :: t) with
        | some (q, r2) => some (.num q, r2)
        | none => none := by
  simp [parseValue, skipWs_cons c t hws, h1, h2, h3, h4, h5, h6, hg]

theorem pv_obj_empty (f : Nat) (s r : List Char) (hs : skipWs s = '\x7d' :: r) :
    parseValue (f + 1) ('\x7b' :: s) = some (.obj [], r) := by
  simp [parseValue, skipWs, isWsB, hs]

theorem pv_obj (f : Nat) (s r : List Char) (c2 : Char)
    (hs : skipWs s = c2 :: r) (hc2 : c2 ≠ '\x7d') :
    parseValue (f + 1) ('\x7b' :: s)
      = match parseMembers f (c2 :: r) with
        | some (ms, r3) => some (.obj (buildObj ms), r3)
        | none => none := by
  simp [parseValue, skipWs, isWsB, hs, hc2]

theorem pv_arr_empty (f : Nat) (s r : List Char) (hs : skipWs s = ']' :: r) :
    parseValue (f + 1) ('[' :: s) = some (.arr [], r) := by
  simp [parseValue, skipWs, isWsB, hs]

theorem pv_arr (f : Nat) (s r : List Char) (c2 : Char)
    (hs : skipWs s = c2 :: r) (hc2 : c2 ≠ ']') :
    parseValue (f + 1) ('[' :: s)
      = match parseElems f (c2 :: r) with
        | some (vs, r3) => some (.arr vs, r3)
        | none => none := by
  simp [parseValue, skipWs, isWsB, hs, hc2]

theorem upsert_fresh (l : List (String × JsonValue)) (k : String) (v : JsonValue)
    (h : k ∉ l.map Prod.fst) : upsert l k v = l ++ [(k, v)] := by
  induction l with
  | nil => rfl
  | cons p t ih =>
    simp only [List.map_cons, List.mem_cons] at h
    push_neg at h
    rw [upsert, if_neg (fun hc => h.1 hc.symm), ih h.2]
    rfl

theorem foldl_upsert (ms : List (String × JsonValue)) : ∀ acc,
    ((acc ++ ms).map Prod.fst).Nodup →
    ms.foldl (fun acc p => upsert acc p.1 p.2) acc = acc ++ ms := by
  induction ms with
  | nil => intro acc _; simp
  | cons p t ih =>
    intro acc hnd
    have hfresh : p.1 ∉ acc.map Prod.fst := by
      intro hmem
      rw [List.map_append, List.nodup_append] at hnd
      exact hnd.2.2 hmem (by simp)
    rw [List.foldl_cons]
    have hup : upsert acc p.1 p.2 = acc ++ [(p.1, p.2)] := upsert_fresh acc p.1 p.2 hfresh
    rw [hup]
    have hnd2 : (((acc ++ [(p.1, p.2)]) ++ t).map Prod.fst).Nodup := by
      have : (acc ++ [(p.1, p.2)]) ++ t = acc ++ (p.1, p.2) :: t := by simp
      rw [this]
      simpa using hnd
    rw [ih (acc ++ [(p.1, p.2)]) hnd2]
    simp

theorem buildObj_eq_self (ms : List (String × JsonValue))
    (h : (ms.map Prod.fst).Nodup) : buildObj ms = ms := by
  have := foldl_upsert ms [] (by simpa using h)
  simpa [buildObj] using this

theorem rt_elems (xs : List JsonValue) : ∀ x : JsonValue,
    (∀ y ∈ x :: xs, WF y → ∀ fuel rest, (marshalRaw y).length < fuel →
      numBoundary rest = true → parseValue fuel (marshalRaw y ++ rest) = some (y, rest)) →
    (∀ y ∈ x :: xs, WF y) →
    ∀ fuel rest, (elemsRaw (x :: xs)).length + 1 < fuel →
    parseElems fuel (elemsRaw (x :: xs) ++ ']' :: rest) = some (x :: xs, rest) := by
  induction xs with
  | nil =>
    intro x hIH hwf fuel rest hfuel
    have hsingle : elemsRaw [x] = marshalRaw x := rfl
    rw [hsingle] at hfuel ⊢
    cases fuel with
    | zero => omega
    | succ f =>
      rw [parseElems]
      rw [hIH x (by simp) (hwf x (by simp)) f (']' :: rest) (by omega)
        (numBoundary_rbracket rest)]
      simp [skipWs, isWsB]
  | cons y t ih =>
    intro x hIH hwf fuel rest hfuel
    have hcons : elemsRaw (x :: y :: t) = marshalRaw x ++ ',' :: elemsRaw (y :: t) := rfl
    rw [hcons] at hfuel ⊢
    rw [List.length_append, List.length_cons] at hfuel
    cases fuel with
    | zero => omega
    | succ f =>
      rw [List.append_assoc, List.cons_append, parseElems]
      rw [hIH x (by simp) (hwf x (by simp)) f (',' :: (elemsRaw (y :: t) ++ ']' :: rest))
        (by omega) (numBoundary_comma _)]
      have hihtail : ∀ z ∈ y :: t, WF z → ∀ fuel rest, (marshalRaw z).length < fuel →
          numBoundary rest = true → parseValue fuel (marshalRaw z ++ rest) = some (z, rest) :=
        fun z hz => hIH z (by simp [List.mem_cons] at hz ⊢; tauto)
      have hwftail : ∀ z ∈ y :: t, WF z :=
        fun z hz => hwf z (by simp [List.mem_cons] at hz ⊢; tauto)
      have hrec := ih y hihtail hwftail f rest (by omega)
      simp [skipWs_cons ',' _ (by decide), hrec]

theorem quoteChars_eq (s : String) :
    quoteChars s = '"' :: (s.data.flatMap escapeChar ++ ['"']) := rfl

theorem membersRaw_cons_head (r : String × JsonValue) (t : List (String × JsonValue)) :
    ∃ s2, membersRaw (r :: t) = '"' :: s2 := by
  cases t with
  | nil =>
    refine ⟨(r.1.data.flatMap escapeChar ++ ['"']) ++ ':' :: marshalRaw r.2, ?_⟩
    rw [show membersRaw [r] = quoteChars r.1 ++ ':' :: marshalRaw r.2 from rfl, quoteChars_eq,
      List.cons_append]
  | cons a b =>
    refine ⟨((r.1.data.flatMap escapeChar ++ ['"']) ++ ':' :: marshalRaw r.2)
      ++ ',' :: membersRaw (a :: b), ?_⟩
    rw [show membersRaw (r :: a :: b)
        = (quoteChars r.1 ++ ':' :: marshalRaw r.2) ++ ',' :: membersRaw (a :: b) from rfl,
      quoteChars_eq, List.cons_append, List.cons_append]

theorem rt_members (ps : List (String × JsonValue)) : ∀ p : String × JsonValue,
    (∀ r ∈ p :: ps, WF r.2 → ∀ fuel rest, (marshalRaw r.2).length < fuel →
      numBoundary rest = true → parseValue fuel (marshalRaw r.2 ++ rest) = some (r.2, rest)) →
    (∀ r ∈ p :: ps, WF r.2) →
    ∀ fuel rest, (membersRaw (p :: ps)).length + 1 < fuel →
    parseMembers fuel (membersRaw (p :: ps) ++ '\x7d' :: rest) = some (p :: ps, rest) := by
  induction ps with
  | nil =>
    intro p hIH hwf fuel rest hfuel
    have hsingle : membersRaw [p] = quoteChars p.1 ++ ':' :: marshalRaw p.2 := rfl
    rw [hsingle] at hfuel ⊢
    rw [List.length_append, List.length_cons] at hfuel
    cases fuel with
    | zero => omega
    | succ f =>
      rw [quoteChars_eq, List.cons_append, List.cons_append, List.append_assoc,
        List.append_assoc, parseMembers]
      rw [List.singleton_append, parse_quoteChars p.1 _]
      have hv := hIH p (by simp) (hwf p (by simp)) f ('\x7d' :: rest) (by omega)
        (numBoundary_rbrace rest)
      simp [hv, skipWs_cons ':' _ (by decide), skipWs_cons '\x7d' _ (by decide)]
  | cons r t ih =>
    intro p hIH hwf fuel rest hfuel
    have hcons : membersRaw (p :: r :: t)
        = (quoteChars p.1 ++ ':' :: marshalRaw p.2) ++ ',' :: membersRaw (r :: t) := rfl
    rw [hcons] at hfuel ⊢
    rw [List.length_append, List.length_append, List.length_cons, List.length_cons] at hfuel
    cases fuel with
    | zero => omega
    | succ f =>
      rw [List.append_assoc, List.cons_append, quoteChars_eq, List.cons_append,
        List.cons_append, List.append_assoc, List.append_assoc, parseMembers]
      rw [List.singleton_append, parse_quoteChars p.1 _]
      have hv := hIH p (by simp) (hwf p (by simp)) f
        (',' :: (membersRaw (r :: t) ++ '\x7d' :: rest)) (by omega) (numBoundary_comma _)
      have hihtail : ∀ z ∈ r :: t, WF z.2 → ∀ fuel rest, (marshalRaw z.2).length < fuel →
          numBoundary rest = true → parseValue fuel (marshalRaw z.2 ++ rest) = some (z.2, rest) :=
        fun z hz => hIH z (by simp [List.mem_cons] at hz ⊢; tauto)
      have hwftail : ∀ z ∈ r :: t, WF z.2 :=
        fun z hz => hwf z (by simp [List.mem_cons] at hz ⊢; tauto)
      have hrec := ih r hihtail hwftail f rest (by omega)
      obtain ⟨s2, hs2⟩ := membersRaw_cons_head r t
      have hskip : skipWs (membersRaw (r :: t) ++ '\x7d' :: rest)
          = membersRaw (r :: t) ++ '\x7d' :: rest := by
        rw [hs2, List.cons_append, skipWs_cons '"' _ (by decide), ← List.cons_append, ← hs2]
      simp [hv, skipWs_cons ':' _ (by decide), skipWs_cons ',' _ (by decide), hskip, hrec]

theorem numChars_head (q : ℚ) :
    ∃ c t, numChars q = c :: t ∧ (c = '-' ∨ isDigitB c = true) := by
  rw [numChars_eq]
  by_cases hneg : q.num < 0
  · rw [if_pos hneg]
    exact ⟨'-', _, rfl, Or.inl rfl⟩
  · rw [if_neg hneg, List.nil_append]
    obtain ⟨c, t, heq, hdig, _⟩ := natDigits_cons_head _
    rw [heq, List.cons_append]
    exact ⟨c, _, rfl, Or.inr hdig⟩

theorem elemsRaw_split (x : JsonValue) (t : List JsonValue) :
    ∃ s2, elemsRaw (x :: t) = marshalRaw x ++ s2 := by
  cases t with
  | nil => exact ⟨[], by simp [elemsRaw]⟩
  | cons y tt => exact ⟨',' :: elemsRaw (y :: tt), rfl⟩

theorem rt_value (w : JsonValue) : WF w → ∀ fuel rest, (marshalRaw w).length < fuel →
    numBoundary rest = true → parseValue fuel (marshalRaw w ++ rest) = some (w, rest) := by
  induction w using JsonValue.indOn with
  | hnull =>
    intro _ fuel rest hfuel _
    cases fuel with
    | zero => omega
    | succ f => exact pv_null f rest
  | hbool b =>
    intro _ fuel rest hfuel _
    cases fuel with
    | zero => omega
    | succ f => cases b with
      | true => exact pv_true f rest
      | false => exact pv_false f rest
  | hnum q =>
    intro hwf fuel rest hfuel hrest
    have hdf : DecFinite q := by cases hwf with | num _ h => exact h
    cases fuel with
    | zero => omega
    | succ f =>
      have hm : marshalRaw (.num q) = numChars q := rfl
      obtain ⟨c, t, heq, hg⟩ := numChars_head q
      have hfacts : isWsB c = false ∧ c ≠ '\x7b' ∧ c ≠ '[' ∧ c ≠ '"' ∧ c ≠ 't' ∧ c ≠ 'f'
          ∧ c ≠ 'n' := by
        rcases hg with hg | hg
        · subst hg
          exact ⟨by decide, by decide, by decide, by decide, by decide, by decide, by decide⟩
        · obtain ⟨hws, k1, k2, k3, k4, k5, k6, _, _, _, _⟩ := digit_facts c hg
          exact ⟨hws, k1, k2, k3, k4, k5, k6⟩
      obtain ⟨hws, k1, k2, k3, k4, k5, k6⟩ := hfacts
      rw [hm, heq, List.cons_append, pv_num f c _ hws k1 k2 k3 k4 k5 k6 hg,
        ← List.cons_append, ← heq, parseNumber_numChars q hdf rest hrest]
  | hstr s =>
    intro _ fuel rest hfuel _
    cases fuel with
    | zero => omega
    | succ f =>
      have hq : marshalRaw (.str s) = '"' :: (s.data.flatMap escapeChar ++ ['"']) := rfl
      rw [hq, List.cons_append, pv_str f _]
      have hsh : (s.data.flatMap escapeChar ++ ['"']) ++ rest
          = s.data.flatMap escapeChar ++ '"' :: rest := by simp
      rw [hsh, parse_quoteChars s rest]
  | harr xs ih =>
    intro hwf fuel rest hfuel hrest
    have hall : ∀ y ∈ xs, WF y := by cases hwf with | arr _ h => exact h
    cases fuel with
    | zero => omega
    | succ f =>
      cases xs with
      | nil =>
        have hm : marshalRaw (.arr []) = ['[', ']'] := rfl
        rw [hm, List.cons_append, List.singleton_append]
        exact pv_arr_empty f (']' :: rest) rest (skipWs_cons ']' rest (by decide))
      | cons x t =>
        have hm : marshalRaw (.arr (x :: t)) = '[' :: (elemsRaw (x :: t) ++ [']']) := rfl
        rw [hm] at hfuel ⊢
        rw [List.length_cons, List.length_append, List.length_singleton] at hfuel
        rw [List.cons_append, List.append_assoc, List.singleton_append]
        obtain ⟨c2, t2, he2, hws2, hrb2, _, _⟩ := marshalRaw_head x
        obtain ⟨s2, hs2⟩ := elemsRaw_split x t
        have hEcons : elemsRaw (x :: t) ++ ']' :: rest = c2 :: (t2 ++ s2 ++ ']' :: rest) := by
          rw [hs2, he2]
          simp
        have hskip : skipWs (elemsRaw (x :: t) ++ ']' :: rest)
            = c2 :: (t2 ++ s2 ++ ']' :: rest) := by
          rw [hEcons, skipWs_cons c2 _ hws2]
        rw [pv_arr f _ _ c2 hskip hrb2, ← hEcons,
          rt_elems t x ih hall f rest (by omega)]
  | hobj kvs ih =>
    intro hwf fuel rest hfuel hrest
    have hall : ∀ p ∈ kvs, WF p.2 := by cases hwf with | obj _ h _ => exact h
    have hnd : (kvs.map Prod.fst).Nodup := by cases hwf with | obj _ _ h => exact h
    cases fuel with
    | zero => omega
    | succ f =>
      cases kvs with
      | nil =>
        have hm : marshalRaw (.obj []) = ['\x7b', '\x7d'] := rfl
        rw [hm, List.cons_append, List.singleton_append]
        exact pv_obj_empty f ('\x7d' :: rest) rest (skipWs_cons '\x7d' rest (by decide))
      | cons p t =>
        have hm : marshalRaw (.obj (p :: t)) = '\x7b' :: (membersRaw (p :: t) ++ ['\x7d']) := rfl
        rw [hm] at hfuel ⊢
        rw [List.length_cons, List.length_append, List.length_singleton] at hfuel
        rw [List.cons_append, List.append_assoc, List.singleton_append]
        obtain ⟨s2, hs2⟩ := membersRaw_cons_head p t
        have hEcons : membersRaw (p :: t) ++ '\x7d' :: rest = '"' :: (s2 ++ '\x7d' :: rest) := by
          rw [hs2]
          simp
        have hskip : skipWs (membersRaw (p :: t) ++ '\x7d' :: rest)
            = '"' :: (s2 ++ '\x7d' :: rest) := by
          rw [hEcons, skipWs_cons '"' _ (by decide)]
        rw [pv_obj f _ _ '"' hskip (by decide), ← hEcons,
          rt_members t p ih hall f rest (by omega)]
        simp [buildObj_eq_self (p :: t) hnd]

/-! ## Canonical form: key order is total and transitive, `canon` is
idempotent and preserves well-formedness -/

theorem keyLeb_total (x : List Char) : ∀ y, keyLeb x y = true ∨ keyLeb y x = true := by
  induction x with
  | nil => intro y; left; rfl
  | cons a as ih =>
    intro y
    cases y with
    | nil => right; rfl
    | cons b bs =>
      rcases lt_trichotomy a b with h | h | h
      · left; simp [keyLeb, h]
      · subst h
        rcases ih bs with h2 | h2
        · left; simp [keyLeb, h2]
        · right; simp [keyLeb, h2]
      · right; simp [keyLeb, h, not_lt.mpr (le_of_lt h)]

theorem keyLeb_trans (x : List Char) : ∀ y z, keyLeb x y = true → keyLeb y z = true →
    keyLeb x z = true := by
  induction x with
  | nil => intro y z _ _; rfl
  | cons a as ih =>
    intro y z h1 h2
    cases y with
    | nil => simp [keyLeb] at h1
    | cons b bs =>
      cases z with
      | nil => simp [keyLeb] at h2
      | cons c cs =>
        simp only [keyLeb] at h1 h2 ⊢
        rcases lt_trichotomy a b with hab | hab | hab
        · rcases lt_trichotomy b c with hbc | hbc | hbc
          · simp [lt_trans hab hbc]
          · subst hbc; simp [hab]
          · rw [if_neg (by exact fun h => absurd h (not_lt.mpr (le_of_lt hbc))),
              if_pos hbc] at h2
            exact absurd h2 (by simp)
        · subst hab
          rw [if_neg (lt_irrefl a), if_neg (lt_irrefl a)] at h1
          rcases lt_trichotomy a c with hac | hac | hac
          · simp [hac]
          · subst hac
            rw [if_neg (lt_irrefl a), if_neg (lt_irrefl a)]
            exact ih bs cs h1 (by simp only [keyLeb, if_neg (lt_irrefl a)] at h2; exact h2)
          · rw [if_neg (by exact fun h => absurd h (not_lt.mpr (le_of_lt hac))),
              if_pos hac] at h2
            exact absurd h2 (by simp)
        · rw [if_neg (by exact fun h => absurd h (not_lt.mpr (le_of_lt hab))),
            if_pos hab] at h1
          exact absurd h1 (by simp)

instance : IsTotal (String × JsonValue) keyLe :=
  ⟨fun p q => keyLeb_total p.1.data q.1.data⟩

instance : IsTrans (String × JsonValue) keyLe :=
  ⟨fun p q r => keyLeb_trans p.1.data q.1.data r.1.data⟩

theorem canonPairs_eq_map (l : List (String × JsonValue)) :
    canonPairs l = l.map (fun p => (p.1, canon p.2)) := by
  induction l with
  | nil => rfl
  | cons p t ih => rw [canonPairs, ih]; rfl

theorem canonList_eq_map (l : List JsonValue) : canonList l = l.map canon := by
  induction l with
  | nil => rfl
  | cons x t ih => rw [canonList, ih]; rfl

theorem canonPairs_keys (l : List (String × JsonValue)) :
    (canonPairs l).map Prod.fst = l.map Prod.fst := by
  rw [canonPairs_eq_map, List.map_map]
  exact List.map_congr_left (fun p _ => rfl)

theorem map_eq_self {α : Type} (f : α → α) (l : List α) (h : ∀ x ∈ l, f x = x) :
    l.map f = l := by
  induction l with
  | nil => rfl
  | cons x t ih => rw [List.map_cons, h x (by simp), ih (fun y hy => h y (by simp [hy]))]

theorem WF_canon (v : JsonValue) : WF v → WF (canon v) := by
  induction v using JsonValue.indOn with
  | hnull => intro h; exact h
  | hbool b => intro h; exact h
  | hnum q => intro h; exact h
  | hstr s => intro h; exact h
  | harr xs ih =>
    intro h
    have hall : ∀ y ∈ xs, WF y := by cases h with | arr _ h2 => exact h2
    rw [show canon (.arr xs) = .arr (canonList xs) from rfl, canonList_eq_map]
    exact WF.arr _ (fun y hy => by
      obtain ⟨x, hx, rfl⟩ := List.mem_map.mp hy
      exact ih x hx (hall x hx))
  | hobj kvs ih =>
    intro h
    have hall : ∀ p ∈ kvs, WF p.2 := by cases h with | obj _ h2 _ => exact h2
    have hnd : (kvs.map Prod.fst).Nodup := by cases h with | obj _ _ h2 => exact h2
    rw [show canon (.obj kvs) = .obj (sortKeys (canonPairs kvs)) from rfl]
    have hperm : (sortKeys (canonPairs kvs)).Perm (canonPairs kvs) :=
      List.perm_insertionSort keyLe (canonPairs kvs)
    refine WF.obj _ (fun p hp => ?_) ?_
    · have hp2 : p ∈ canonPairs kvs := hperm.mem_iff.mp hp
      rw [canonPairs_eq_map] at hp2
      obtain ⟨r, hr, rfl⟩ := List.mem_map.mp hp2
      exact ih r hr (hall r hr)
    · have hpk : ((sortKeys (canonPairs kvs)).map Prod.fst).Perm
          ((canonPairs kvs).map Prod.fst) := hperm.map Prod.fst
      rw [hpk.nodup_iff, canonPairs_keys]
      exact hnd

theorem canon_idem (v : JsonValue) : canon (canon v) = canon v := by
  induction v using JsonValue.indOn with
  | hnull => rfl
  | hbool b => rfl
  | hnum q => rfl
  | hstr s => rfl
  | harr xs ih =>
    rw [show canon (.arr xs) = .arr (canonList xs) from rfl,
      show canon (.arr (canonList xs)) = .arr (canonList (canonList xs)) from rfl,
      canonList_eq_map, canonList_eq_map, List.map_map]
    exact congrArg _ (List.map_congr_left (fun x hx => ih x hx))
  | hobj kvs ih =>
    rw [show canon (.obj kvs) = .obj (sortKeys (canonPairs kvs)) from rfl,
      show canon (.obj (sortKeys (canonPairs kvs)))
        = .obj (sortKeys (canonPairs (sortKeys (canonPairs kvs)))) from rfl]
    have hperm : (sortKeys (canonPairs kvs)).Perm (canonPairs kvs) :=
      List.perm_insertionSort keyLe (canonPairs kvs)
    have hfix : canonPairs (sortKeys (canonPairs kvs)) = sortKeys (canonPairs kvs) := by
      rw [canonPairs_eq_map]
      refine map_eq_self _ _ (fun p hp => ?_)
      have hp2 : p ∈ canonPairs kvs := hperm.mem_iff.mp hp
      rw [canonPairs_eq_map] at hp2
      obtain ⟨r, hr, rfl⟩ := List.mem_map.mp hp2
      rw [ih r hr]
    rw [hfix]
    have hsorted : List.Sorted keyLe (sortKeys (canonPairs kvs)) :=
      List.sorted_insertionSort keyLe (canonPairs kvs)
    rw [show sortKeys (sortKeys (canonPairs kvs))
        = List.insertionSort keyLe (sortKeys (canonPairs kvs)) from rfl,
      hsorted.insertionSort_eq]


/-! ## Decoded values are well-formed

Every number the parser returns is built by `ratFromParts`, a single integer
over a power of ten, so its denominator divides a power of ten; every object
level is produced by `buildObj`, whose upsert semantics keep keys distinct. -/

theorem den_int_div_pow (n : ℤ) (m : ℕ) :
    (((n : ℚ)) / ((((10 : ℤ) ^ m : ℤ) : ℚ))).den ∣ 10 ^ m := by
  have h := Rat.den_dvd n ((10 : ℤ) ^ m)
  rw [Rat.divInt_eq_div] at h
  have h2 : ((10 : ℤ) ^ m) = ((10 ^ m : ℕ) : ℤ) := by push_cast; ring
  rw [h2] at h
  exact_mod_cast h

theorem DecFinite_ratFromParts (neg : Bool) (ip fv fc : Nat) (esign : Bool) (ev : Nat) :
    DecFinite (ratFromParts neg ip fv fc esign ev) := by
  refine ⟨fc + if esign then ev else 0, ?_⟩
  simp only [ratFromParts]
  cases neg
  · rw [if_neg (by simp : ¬ (false = true)), one_mul]
    exact den_int_div_pow _ _
  · rw [if_pos rfl, neg_one_mul, Rat.neg_den]
    exact den_int_div_pow _ _

theorem parseExpDigits_DecFinite (neg : Bool) (ip fv fc : Nat) (esign : Bool)
    (s : List Char) (q : ℚ) (r : List Char)
    (h : parseExpDigits neg ip fv fc esign s = some (q, r)) : DecFinite q := by
  unfold parseExpDigits at h
  split at h
  split_ifs at h
  injection h with hp
  injection hp with hq hr
  exact hq ▸ DecFinite_ratFromParts neg ip fv fc esign _

theorem parseExpSign_DecFinite (neg : Bool) (ip fv fc : Nat)
    (s : List Char) (q : ℚ) (r : List Char)
    (h : parseExpSign neg ip fv fc s = some (q, r)) : DecFinite q := by
  unfold parseExpSign at h
  split at h
  · exact parseExpDigits_DecFinite _ _ _ _ _ _ _ _ h
  · exact parseExpDigits_DecFinite _ _ _ _ _ _ _ _ h
  · exact parseExpDigits_DecFinite _ _ _ _ _ _ _ _ h

theorem parseExpPart_DecFinite (neg : Bool) (ip fv fc : Nat)
    (s : List Char) (q : ℚ) (r : List Char)
    (h : parseExpPart neg ip fv fc s = some (q, r)) : DecFinite q := by
  cases s with
  | nil =>
    simp only [parseExpPart] at h
    injection h with hp
    injection hp with hq hr
    exact hq ▸ DecFinite_ratFromParts neg ip fv fc false 0
  | cons c t =>
    simp only [parseExpPart] at h
    by_cases hc : c = 'e' ∨ c = 'E'
    · rw [if_pos hc] at h
      exact parseExpSign_DecFinite _ _ _ _ _ _ _ h
    · rw [if_neg hc] at h
      injection h with hp
      injection hp with hq hr
      exact hq ▸ DecFinite_ratFromParts neg ip fv fc false 0

theorem parseFracExp_DecFinite (neg : Bool) (ip : Nat)
    (s : List Char) (q : ℚ) (r : List Char)
    (h : parseFracExp neg ip s = some (q, r)) : DecFinite q := by
  unfold parseFracExp at h
  split at h
  · split at h
    split_ifs at h
    exact parseExpPart_DecFinite _ _ _ _ _ _ _ h
  · exact parseExpPart_DecFinite _ _ _ _ _ _ _ h

theorem parseNumberBody_DecFinite (neg : Bool)
    (s : List Char) (q : ℚ) (r : List Char)
    (h : parseNumberBody neg s = some (q, r)) : DecFinite q := by
  cases s with
  | nil => exact absurd h (by simp [parseNumberBody])
  | cons c t =>
    simp only [parseNumberBody] at h
    by_cases h0 : c = '0'
    · rw [if_pos h0] at h
      exact parseFracExp_DecFinite _ _ _ _ _ h
    · rw [if_neg h0] at h
      by_cases hd : isDigitB c
      · rw [if_pos hd] at h
        exact parseFracExp_DecFinite _ _ _ _ _ h
      · rw [if_neg hd] at h
        exact absurd h (by simp)

theorem parseNumber_DecFinite (s : List Char) (q : ℚ) (r : List Char)
    (h : parseNumber s = some (q, r)) : DecFinite q := by
  unfold parseNumber at h
  split at h
  · exact parseNumberBody_DecFinite _ _ _ _ h
  · exact parseNumberBody_DecFinite _ _ _ _ h

theorem mem_upsert (k : String) (v : JsonValue) :
    ∀ (l : List (String × JsonValue)) (p : String × JsonValue),
      p ∈ upsert l k v → p = (k, v) ∨ p ∈ l := by
  intro l
  induction l with
  | nil =>
    intro p hp
    simp only [upsert, List.mem_singleton] at hp
    exact Or.inl hp
  | cons x t ih =>
    intro p hp
    simp only [upsert] at hp
    by_cases hx : x.1 = k
    · rw [if_pos hx] at hp
      rcases List.mem_cons.mp hp with h1 | h1
      · exact Or.inl h1
      · exact Or.inr (List.mem_cons_of_mem x h1)
    · rw [if_neg hx] at hp
      rcases List.mem_cons.mp hp with h1 | h1
      · exact Or.inr (h1 ▸ List.mem_cons_self x t)
      · rcases ih p h1 with h2 | h2
        · exact Or.inl h2
        · exact Or.inr (List.mem_cons_of_mem x h2)

theorem upsert_keys_sub (k : String) (v : JsonValue) (l : List (String × JsonValue))
    (x : String) (hx : x ∈ (upsert l k v).map Prod.fst) :
    x = k ∨ x ∈ l.map Prod.fst := by
  rcases List.mem_map.mp hx with ⟨p, hp, hpx⟩
  rcases mem_upsert k v l p hp with h1 | h1
  · left
    rw [← hpx, h1]
  · right
    exact hpx ▸ List.mem_map_of_mem Prod.fst h1

theorem upsert_keys_nodup (k : String) (v : JsonValue) :
    ∀ l : List (String × JsonValue), (l.map Prod.fst).Nodup →
      ((upsert l k v).map Prod.fst).Nodup := by
  intro l
  induction l with
  | nil =>
    intro _
    simp [upsert]
  | cons x t ih =>
    intro hnd
    simp only [List.map_cons, List.nodup_cons] at hnd
    simp only [upsert]
    by_cases hx : x.1 = k
    · rw [if_pos hx]
      simp only [List.map_cons, List.nodup_cons]
      exact ⟨hx ▸ hnd.1, hnd.2⟩
    · rw [if_neg hx]
      simp only [List.map_cons, List.nodup_cons]
      refine ⟨?_, ih hnd.2⟩
      intro hmem
      rcases upsert_keys_sub k v t x.1 hmem with h1 | h1
      · exact hx h1
      · exact hnd.1 h1

theorem buildObj_aux (ms : List (String × JsonValue)) :
    ∀ acc : List (String × JsonValue), (acc.map Prod.fst).Nodup →
      (((ms.foldl (fun a p => upsert a p.1 p.2) acc).map Prod.fst).Nodup
      ∧ ∀ p ∈ ms.foldl (fun a p => upsert a p.1 p.2) acc, p ∈ acc ∨ p ∈ ms) := by
  induction ms with
  | nil =>
    intro acc h
    exact ⟨h, fun p hp => Or.inl hp⟩
  | cons m t ih =>
    intro acc h
    simp only [List.foldl_cons]
    obtain ⟨h1, h2⟩ := ih (upsert acc m.1 m.2) (upsert_keys_nodup m.1 m.2 acc h)
    refine ⟨h1, ?_⟩
    intro p hp
    rcases h2 p hp with hin | hin
    · rcases mem_upsert m.1 m.2 acc p hin with he | he
      · right
        rw [he]
        exact List.mem_cons_self m t
      · left
        exact he
    · right
      exact List.mem_cons_of_mem m hin

theorem buildObj_nodup (ms : List (String × JsonValue)) :
    ((buildObj ms).map Prod.fst).Nodup :=
  (buildObj_aux ms [] (by simp)).1

theorem mem_buildObj (ms : List (String × JsonValue)) (p : String × JsonValue)
    (hp : p ∈ buildObj ms) : p ∈ ms := by
  rcases (buildObj_aux ms [] (by simp)).2 p hp with h1 | h1
  · exact absurd h1 (List.not_mem_nil p)
  · exact h1

theorem wf_parse (fuel : Nat) :
    (∀ s v r, parseValue fuel s = some (v, r) → WF v)
    ∧ (∀ s l r, parseMembers fuel s = some (l, r) → ∀ p ∈ l, WF p.2)
    ∧ (∀ s l r, parseElems fuel s = some (l, r) → ∀ x ∈ l, WF x) := by
  induction fuel with
  | zero =>
    refine ⟨?_, ?_, ?_⟩
    · intro s v r h
      exact absurd h (by simp [parseValue])
    · intro s l r h
      exact absurd h (by simp [parseMembers])
    · intro s l r h
      exact absurd h (by simp [parseElems])
  | succ f ih =>
    obtain ⟨ihv, ihm, ihe⟩ := ih
    refine ⟨?_, ?_, ?_⟩
    · intro s v r h
      simp only [parseValue] at h
      split at h
      · exact absurd h (by simp)
      rename_i c rest hsw
      by_cases h1 : c = '\x7b'
      · rw [if_pos h1] at h
        split at h
        · exact absurd h (by simp)
        rename_i c2 r2 hsw2
        by_cases h2 : c2 = '\x7d'
        · rw [if_pos h2] at h
          injection h with hp
          injection hp with hv hr
          exact hv ▸ WF.obj [] (by simp) (by simp)
        · rw [if_neg h2] at h
          split at h
          · rename_i ms r3 hm
            injection h with hp
            injection hp with hv hr
            refine hv ▸ WF.obj (buildObj ms) ?_ (buildObj_nodup ms)
            intro p hp2
            exact ihm _ _ _ hm p (mem_buildObj ms p hp2)
          · exact absurd h (by simp)
      · rw [if_neg h1] at h
        by_cases h2 : c = '['
        · rw [if_pos h2] at h
          split at h
          · exact absurd h (by simp)
          rename_i c2 r2 hsw3
          by_cases h3 : c2 = ']'
          · rw [if_pos h3] at h
            injection h with hp
            injection hp with hv hr
            exact hv ▸ WF.arr [] (by simp)
          · rw [if_neg h3] at h
            split at h
            · rename_i vs r3 he
              injection h with hp
              injection hp with hv hr
              exact hv ▸ WF.arr vs (ihe _ _ _ he)
            · exact absurd h (by simp)
        · rw [if_neg h2] at h
          by_cases h3 : c = '"'
          · rw [if_pos h3] at h
            split at h
            · rename_i str r2 hs
              injection h with hp
              injection hp with hv hr
              exact hv ▸ WF.str str
            · exact absurd h (by simp)
          · rw [if_neg h3] at h
            by_cases h4 : c = 't'
            · rw [if_pos h4] at h
              split at h
              · rename_i r2
                injection h with hp
                injection hp with hv hr
                exact hv ▸ WF.bool true
              · exact absurd h (by simp)
            · rw [if_neg h4] at h
              by_cases h5 : c = 'f'
              · rw [if_pos h5] at h
                split at h
                · rename_i r2
                  injection h with hp
                  injection hp with hv hr
                  exact hv ▸ WF.bool false
                · exact absurd h (by simp)
              · rw [if_neg h5] at h
                by_cases h6 : c = 'n'
                · rw [if_pos h6] at h
                  split at h
                  · rename_i r2
                    injection h with hp
                    injection hp with hv hr
                    exact hv ▸ WF.null
                  · exact absurd h (by simp)
                · rw [if_neg h6] at h
                  by_cases h7 : c = '-' ∨ isDigitB c
                  · rw [if_pos h7] at h
                    split at h
                    · rename_i q r2 hn
                      injection h with hp
                      injection hp with hv hr
                      exact hv ▸ WF.num q (parseNumber_DecFinite _ _ _ hn)
                    · exact absurd h (by simp)
                  · rw [if_neg h7] at h
                    exact absurd h (by simp)
    · intro s l r h
      simp only [parseMembers] at h
      split at h
      · rename_i rest
        split at h
        · rename_i k r1 hk
          split at h
          · rename_i r2
            split at h
            · rename_i v r3 hv
              split at h
              · rename_i r4
                split at h
                · rename_i ms r5 hm
                  injection h with hp
                  injection hp with hl hr
                  intro p hpm
                  rw [← hl] at hpm
                  rcases List.mem_cons.mp hpm with h1 | h1
                  · rw [h1]
                    exact ihv _ _ _ hv
                  · exact ihm _ _ _ hm p h1
                · exact absurd h (by simp)
              · rename_i r4
                injection h with hp
                injection hp with hl hr
                intro p hpm
                rw [← hl] at hpm
                rcases List.mem_cons.mp hpm with h1 | h1
                · rw [h1]
                  exact ihv _ _ _ hv
                · exact absurd h1 (List.not_mem_nil p)
              · exact absurd h (by simp)
            · exact absurd h (by simp)
          · exact absurd h (by simp)
        · exact absurd h (by simp)
      · exact absurd h (by simp)
    · intro s l r h
      simp only [parseElems] at h
      split at h
      · rename_i v r1 hv
        split at h
        · rename_i r2
          split at h
          · rename_i vs r3 he
            injection h with hp
            injection hp with hl hr
            intro x hx
            rw [← hl] at hx
            rcases List.mem_cons.mp hx with h1 | h1
            · rw [h1]
              exact ihv _ _ _ hv
            · exact ihe _ _ _ he x h1
          · exact absurd h (by simp)
        · rename_i r2
          injection h with hp
          injection hp with hl hr
          intro x hx
          rw [← hl] at hx
          rcases List.mem_cons.mp hx with h1 | h1
          · rw [h1]
            exact ihv _ _ _ hv
          · exact absurd h1 (List.not_mem_nil x)
        · exact absurd h (by simp)
      · exact absurd h (by simp)

theorem decode_wf (t : String) (v : JsonValue) (h : decode t = some v) : WF v := by
  unfold decode at h
  split at h
  · rename_i w rest hw
    by_cases hws : skipWs rest = []
    · rw [if_pos hws] at h
      injection h with hv
      exact hv ▸ (wf_parse _).1 _ _ _ hw
    · rw [if_neg hws] at h
      exact absurd h (by simp)
  · exact absurd h (by simp)

theorem decode_eq_of_parse (t : String) (v : JsonValue)
    (h : parseValue (t.data.length + 1) t.data = some (v, [])) : decode t = some v := by
  unfold decode
  rw [h]
  simp [skipWs]

theorem decode_marshalStr (v : JsonValue) (h : WF v) :
    decode (marshalStr v) = some (canon v) := by
  apply decode_eq_of_parse
  have hlen : (marshalRaw (canon v)).length < (marshalStr v).data.length + 1 :=
    Nat.lt_succ_of_le (le_of_eq rfl)
  have hrt := rt_value (canon v) (WF_canon v h) ((marshalStr v).data.length + 1) []
    hlen (by decide)
  rw [List.append_nil] at hrt
  exact hrt

theorem afterLabel_format (v : JsonValue) :
    afterLabel (formatJSON false v) = marshalStr v := by
  rw [formatJSON_false_eq]
  unfold afterLabel
  rw [String.data_append, List.drop_left]

/-- C8: for every JSON value the decoder produces, decoding the JSON text
that follows the fixed `JSON-Body: ` label of the compact output succeeds
and yields a value structurally equivalent to the original decoded value:
the same key/value structure up to mapping-key order, with every number
already normalized to its decoded (64-bit-float idealized) representation. -/
theorem decode_print_roundtrip (t : String) (v : JsonValue) (h : decode t = some v) :
    ∃ w, decode (afterLabel (formatJSON false v)) = some w ∧ structEquiv w v := by
  have hwf : WF v := decode_wf t v h
  rw [afterLabel_format]
  exact ⟨canon v, decode_marshalStr v hwf, canon_idem v⟩

/-- The round trip exercised at a concrete request body. -/
theorem decode_print_roundtrip_witness :
    decode "[true,null]" = some (.arr [.bool true, .null])
    ∧ ∃ w, decode (afterLabel (formatJSON false (JsonValue.arr [.bool true, .null])))
        = some w ∧ structEquiv w (JsonValue.arr [.bool true, .null]) :=
  ⟨rfl, decode_print_roundtrip "[true,null]" (JsonValue.arr [.bool true, .null]) rfl⟩

end ReqParser
